import Mathlib

/-!
# Verification of the CTX-Audit indexing and analysis core

A shallow embedding, in Lean 4, of the Rust core of the CTX-Audit
repository: the symbol model (`core/src/ast/symbol.rs`), the cache store
(`core/src/ast/cache.rs`), the query engine (`core/src/ast/query.rs`), the
indexing engine (`src-tauri/src/ast/engine.rs`), and the rule scanner
(`src-tauri/src/rules/scanner.rs`, `core/src/scanner/regex_scanner.rs`).

Rust `HashMap`s are modelled as association lists with unique keys and
value-replacing insertion; iteration order of a `HashMap` is unspecified in
Rust, so the particular order an association list yields is one of the
admissible behaviours.  `serde_json::Value` is modelled by the inductive
`Json`.  External libraries (the `regex` crate, tree-sitter, `bincode`,
UUID generation, the system clock) are modelled by explicit parameters or,
for the serialization format -- which the specification declares
internal/private, any self-consistent encoding being acceptable -- by an
executable encoder/decoder pair defined below.
-/

namespace CTX

/-- JSON values (`serde_json::Value`); numbers are modelled as integers. -/
inductive Json where
  | null : Json
  | bool (b : Bool) : Json
  | num (n : Int) : Json
  | str (s : String) : Json
  | arr (xs : List Json) : Json
  | obj (xs : List (String × Json)) : Json

/-- The `Value::as_str`: `some` exactly on JSON strings. -/
def Json.asStr : Json → Option String
  | .str s => some s
  | _ => none

/-- The `SymbolKind` from `core/src/ast/symbol.rs`. -/
inductive SymbolKind where
  | Class
  | Function
  | Method
  | MethodCall
  | Interface
  | Struct
deriving DecidableEq

/-- The `Field` from `core/src/ast/symbol.rs`. -/
structure Field where
  name : String
  field_type : String
  start_line : Nat
  end_line : Nat
  modifiers : List String
  metadata : List (String × Json)

/-- The `Symbol` from `core/src/ast/symbol.rs`. -/
structure Symbol where
  name : String
  kind : SymbolKind
  file_path : String
  line : Nat
  start_line : Nat
  end_line : Nat
  code : String
  parent_classes : List String
  package : String
  modifiers : List String
  fields : List Field
  metadata : List (String × Json)
  subclasses : List String

/-- The `FileIndex` from `core/src/ast/cache.rs`: last observed mtime (seconds
since epoch) plus the symbols extracted from the file. -/
structure FileIndex where
  mtime : Nat
  symbols : List Symbol

/-- Association list standing in for `HashMap`: lookup of a key. -/
def mapLookup (m : List (String × α)) (k : String) : Option α :=
  match m with
  | [] => none
  | (k', v) :: t => if k' = k then some v else mapLookup t k

/-- The `HashMap::insert`: replace the value if the key is present, otherwise
append the binding. -/
def mapInsert (m : List (String × α)) (k : String) (v : α) : List (String × α) :=
  match m with
  | [] => [(k, v)]
  | (k', v') :: t => if k' = k then (k, v) :: t else (k', v') :: mapInsert t k v

/-- The `HashMap::remove`: drop the binding for a key (first occurrence). -/
def mapRemove (m : List (String × α)) (k : String) : List (String × α) :=
  match m with
  | [] => []
  | (k', v') :: t => if k' = k then t else (k', v') :: mapRemove t k

/-- The `CacheData` from `core/src/ast/cache.rs`: the persisted index. -/
structure CacheData where
  index : List (String × FileIndex)
  class_map : List (String × String)
  build_time : String

/-! ## Query engine: call graph (`QueryEngine::get_call_graph`) -/

/-- One call-graph edge, `{from, to, file, line}`. -/
structure CGEdge where
  efrom : String
  eto : String
  file : String
  line : Nat
deriving DecidableEq

/-- The call-graph result `{entry, nodes, edges}`; a node's JSON object
`{id, label}` is determined by its id, so nodes are kept as their ids. -/
structure CallGraph where
  entry : String
  nodes : List String
  edges : List CGEdge
deriving DecidableEq

/-- Mutable state of the call-graph traversal loop. -/
structure CGSt where
  nodes : List String
  edges : List CGEdge
  visited : List String

/-- The `nodes.entry(id).or_insert_with(...)`: add a node id if absent.  (The
surrounding `HashMap` yields its values in unspecified order.) -/
def cgAddNode (st : CGSt) (id : String) : CGSt :=
  if st.nodes.contains id then st else { st with nodes := id :: st.nodes }

/-- The caller name recorded in a `MethodCall` symbol's metadata:
`metadata.get("callerMethod").or_else(.. "callerFunction").and_then(as_str).unwrap_or("")`. -/
def callerOf (s : Symbol) : String :=
  let v := match mapLookup s.metadata "callerMethod" with
    | some v => some v
    | none => mapLookup s.metadata "callerFunction"
  (v.bind Json.asStr).getD ""

/-- All `(file_path, symbol)` pairs of the index, in iteration order. -/
def allSyms (c : CacheData) : List (String × Symbol) :=
  c.index.flatMap (fun fe => fe.2.symbols.map (fun s => (fe.1, s)))

/-- The body of the inner loop of `get_call_graph`: examine one symbol
while expanding `current`, extending state and the next-level queue. -/
def cgScanSym (current : String) (acc : CGSt × List String) (fs : String × Symbol) :
    CGSt × List String :=
  let (st, nq) := acc
  let s := fs.2
  if s.kind = SymbolKind.MethodCall ∧ callerOf s = current then
    let st := cgAddNode st s.name
    let st := { st with
      edges := st.edges ++ [⟨current, s.name, fs.1, s.start_line⟩] }
    if st.visited.contains s.name then (st, nq) else (st, nq ++ [s.name])
  else (st, nq)

/-- Expand one name popped from the queue (skipping it when visited). -/
def cgVisit (c : CacheData) (acc : CGSt × List String) (current : String) :
    CGSt × List String :=
  let (st, nq) := acc
  if st.visited.contains current then (st, nq)
  else
    let st := { st with visited := current :: st.visited }
    let st := cgAddNode st current
    (allSyms c).foldl (cgScanSym current) (st, nq)

/-- Process one breadth-first level: fold `cgVisit` over the queue. -/
def cgLevel (c : CacheData) (queue : List String) (st : CGSt) : CGSt × List String :=
  queue.foldl (cgVisit c) (st, [])

/-- The `while !queue.is_empty() && depth < max_depth` loop: one level per
unit of remaining depth. -/
def cgLoop (c : CacheData) (fuel : Nat) (queue : List String) (st : CGSt) : CGSt :=
  match fuel, queue with
  | 0, _ => st
  | _ + 1, [] => st
  | f + 1, q => let r := cgLevel c q st; cgLoop c f r.2 r.1

/-- The `QueryEngine::get_call_graph`. -/
def getCallGraph (c : CacheData) (entry : String) (maxDepth : Nat) : CallGraph :=
  let e := entry.trim
  if e.isEmpty then ⟨e, [], []⟩
  else
    let st := cgLoop c maxDepth [e] ⟨[], [], []⟩
    ⟨e, st.nodes, st.edges⟩

/-! Node-uniqueness invariant of the call-graph traversal. -/

theorem cgAddNode_nodup {st : CGSt} (h : st.nodes.Nodup) (id : String) :
    (cgAddNode st id).nodes.Nodup := by
  unfold cgAddNode
  split
  · exact h
  · next hc =>
    refine List.nodup_cons.mpr ⟨?_, h⟩
    simpa using hc

theorem cgScanSym_nodup {current : String} {acc : CGSt × List String}
    (h : acc.1.nodes.Nodup) (fs : String × Symbol) :
    ((cgScanSym current acc fs).1).nodes.Nodup := by
  unfold cgScanSym
  obtain ⟨st, nq⟩ := acc
  simp only at h ⊢
  split
  · split
    · exact cgAddNode_nodup h _
    · exact cgAddNode_nodup h _
  · exact h

theorem cgScanSym_fold_nodup (current : String) (l : List (String × Symbol))
    (acc : CGSt × List String) (h : acc.1.nodes.Nodup) :
    ((l.foldl (cgScanSym current) acc).1).nodes.Nodup := by
  induction l generalizing acc with
  | nil => exact h
  | cons x t ih => exact ih _ (cgScanSym_nodup h x)

theorem cgVisit_nodup (c : CacheData) {acc : CGSt × List String}
    (h : acc.1.nodes.Nodup) (current : String) :
    ((cgVisit c acc current).1).nodes.Nodup := by
  unfold cgVisit
  obtain ⟨st, nq⟩ := acc
  simp only at h ⊢
  split
  · exact h
  · refine cgScanSym_fold_nodup current (allSyms c) _ ?_
    exact @cgAddNode_nodup { st with visited := current :: st.visited } h current

theorem cgLevel_nodup (c : CacheData) (queue : List String) {st : CGSt}
    (h : st.nodes.Nodup) : ((cgLevel c queue st).1).nodes.Nodup := by
  unfold cgLevel
  have : ∀ (q : List String) (acc : CGSt × List String), acc.1.nodes.Nodup →
      ((q.foldl (cgVisit c) acc).1).nodes.Nodup := by
    intro q
    induction q with
    | nil => intro acc h; exact h
    | cons x t ih => intro acc h; exact ih _ (cgVisit_nodup c h x)
  exact this queue (st, []) h

theorem cgLoop_nodup (c : CacheData) (fuel : Nat) (queue : List String)
    (st : CGSt) (h : st.nodes.Nodup) : (cgLoop c fuel queue st).nodes.Nodup := by
  induction fuel generalizing queue st with
  | zero => exact h
  | succ f ih =>
    match queue with
    | [] => exact h
    | q :: qs => exact ih _ _ (cgLevel_nodup c (q :: qs) h)

/-- C3.  Call-graph termination and node uniqueness: `get_call_graph` is a
total function for every index (including cyclic caller/callee metadata),
every entry and every depth -- the traversal is bounded by `max_depth`
levels and each level folds over a finite queue -- and each node id occurs
at most once in the returned node list. -/
theorem getCallGraph_nodes_nodup (c : CacheData) (entry : String) (maxDepth : Nat) :
    (getCallGraph c entry maxDepth).nodes.Nodup := by
  by_cases h : entry.trim.isEmpty
  · simp [getCallGraph, h]
  · simp only [getCallGraph, h, Bool.false_eq_true, if_false]
    exact cgLoop_nodup c maxDepth _ _ List.nodup_nil

/-- C10.  Zero-depth call graph: with `max_depth = 0` the depth-bounded
loop body never runs, so the returned graph has no nodes and no edges (the
entry node itself is not emitted), for blank and non-blank entries alike. -/
theorem getCallGraph_zero_depth (c : CacheData) (entry : String) :
    (getCallGraph c entry 0).nodes = [] ∧ (getCallGraph c entry 0).edges = [] := by
  by_cases h : entry.trim.isEmpty
  · simp [getCallGraph, h]
  · simp [getCallGraph, h, cgLoop]

/-! ## Query engine: class hierarchy (`QueryEngine::get_class_hierarchy`) -/

/-- A parent/child entry `{name, file, line}` of a hierarchy result. -/
structure HNode where
  name : String
  file : String
  line : Nat
deriving DecidableEq

/-- The hierarchy result `{class, file, parents, children}`. -/
structure Hierarchy where
  cls : String
  file : String
  parents : List HNode
  children : List HNode
deriving DecidableEq

/-- Hierarchy query outcome: the error JSON `{error: ...}` or the result. -/
inductive HierResult where
  | err (msg : String) : HierResult
  | ok (h : Hierarchy) : HierResult
deriving DecidableEq

/-- A single-quote character, written via its code point. -/
def sq : String := String.singleton (Char.ofNat 39)

/-- The `QueryEngine::find_class_symbol_in_file`: first symbol of kind `Class`
with the given name in the given file's index. -/
def findClassSymbolInFile (c : CacheData) (className filePath : String) :
    Option Symbol :=
  match mapLookup c.index filePath with
  | none => none
  | some fi =>
    fi.symbols.find? (fun s => s.kind = SymbolKind.Class ∧ s.name = className)

/-- The `QueryEngine::find_class_symbol`: resolve through the class map. -/
def findClassSymbol (c : CacheData) (className : String) : Option Symbol :=
  match mapLookup c.class_map className with
  | some filePath => findClassSymbolInFile c className filePath
  | none => none

/-- Total number of `parent_classes` entries over the whole index; bounds
how many names one iteration of the upward traversal can enqueue. -/
def totalParents (c : CacheData) : Nat :=
  ((allSyms c).map (fun fs => fs.2.parent_classes.length)).sum

/-- Fuel that strictly dominates the number of loop iterations (queue pops)
the upward breadth-first traversal can perform: at most
`class_map.length + totalParents + 1` distinct names are ever visited, each
visit enqueues at most `totalParents` names, and unvisited-pop and
visited-skip each consume one pop. -/
def hierFuel (c : CacheData) : Nat :=
  (c.class_map.length + totalParents c + 2) * (totalParents c + 2)

/-- The upward (`parents`) breadth-first loop of `get_class_hierarchy`:
pop a name, skip it if visited, otherwise record it (except the starting
class) and enqueue its not-yet-visited declared parents. -/
def upLoop (c : CacheData) (className : String) :
    Nat → List String → List String → List HNode → List HNode
  | 0, _, _, parents => parents
  | _ + 1, [], _, parents => parents
  | fuel + 1, current :: queue, visited, parents =>
    if visited.contains current then upLoop c className fuel queue visited parents
    else
      match mapLookup c.class_map current with
      | none => upLoop c className fuel queue (current :: visited) parents
      | some currentFile =>
        match findClassSymbolInFile c current currentFile with
        | none => upLoop c className fuel queue (current :: visited) parents
        | some sym =>
          upLoop c className fuel
            (queue ++ sym.parent_classes.filter
              (fun p => ¬ (current :: visited).contains p))
            (current :: visited)
            (if current ≠ className then
              parents ++ [⟨current, currentFile, sym.start_line⟩] else parents)

/-- The downward pass: every `Class`-kind symbol anywhere in the index
whose `parent_classes` directly names the target. -/
def childrenScan (c : CacheData) (className : String) : List HNode :=
  c.index.flatMap (fun fe =>
    fe.2.symbols.filterMap (fun s =>
      if s.kind = SymbolKind.Class ∧ className ∈ s.parent_classes then
        some ⟨s.name, fe.1, s.start_line⟩
      else none))

/-- The `QueryEngine::get_class_hierarchy`. -/
def getClassHierarchy (c : CacheData) (className : String) : HierResult :=
  match findClassSymbol c className, mapLookup c.class_map className with
  | some _, some targetFile =>
    let parents := upLoop c className (hierFuel c) [className] [] []
    let children := childrenScan c className
    .ok ⟨className, targetFile, parents, children⟩
  | _, _ => .err ("在索引中未找到类 " ++ sq ++ className ++ sq)

/-! ## Query engine: remaining read-only operations -/

/-- ASCII lower-casing (`str::to_lowercase`; the language tags and
extensions at hand are ASCII). -/
def strToLower (s : String) : String := String.mk (s.toList.map Char.toLower)

/-- Split a character list at every occurrence of a separator character;
always yields at least one (possibly empty) piece. -/
def splitChar (sep : Char) : List Char → List (List Char)
  | [] => [[]]
  | c :: t =>
    match splitChar sep t with
    | [] => [[]]
    | h :: rest => if c = sep then [] :: h :: rest else (c :: h) :: rest

/-- Substring test on character lists (`str::contains`). -/
def listContainsSub (needle hay : List Char) : Bool :=
  match hay with
  | [] => needle.isEmpty
  | _ :: t => needle.isPrefixOf hay || listContainsSub needle t

/-- The `str::contains` on strings. -/
def strContains (hay needle : String) : Bool :=
  listContainsSub needle.toList hay.toList

/-- The `QueryEngine::search_symbols`: case-insensitive substring match on
every symbol name. -/
def searchSymbols (c : CacheData) (query : String) : List Symbol :=
  let q := strToLower query
  ((allSyms c).map Prod.snd).filter (fun s => strContains (strToLower s.name) q)

/-- The `QueryEngine::find_call_sites`: exact name match on `MethodCall`s. -/
def findCallSites (c : CacheData) (calleeName : String) : List Symbol :=
  let needle := calleeName.trim
  if needle.isEmpty then []
  else ((allSyms c).map Prod.snd).filter
    (fun s => s.kind = SymbolKind.MethodCall ∧ s.name = needle)

/-- The `QueryEngine::get_file_structure`. -/
def getFileStructure (c : CacheData) (filePath : String) : List Symbol :=
  match mapLookup c.index filePath with
  | some fi => fi.symbols
  | none => []

/-- The per-kind display label used by `get_statistics`. -/
def displayKind : SymbolKind → String
  | .Function => "Method/Function"
  | .Class => "Class"
  | .Interface => "Interface"
  | .Method => "Method"
  | .MethodCall => "MethodCall"
  | .Struct => "Struct"

/-- The statistics result `{total_nodes, type_counts}`. -/
structure Statistics where
  total_nodes : Nat
  type_counts : List (String × Nat)
deriving DecidableEq

/-- The `QueryEngine::get_statistics`. -/
def getStatistics (c : CacheData) : Statistics :=
  { total_nodes := ((allSyms c).map Prod.snd).length,
    type_counts := ((allSyms c).map Prod.snd).foldl
      (fun m s =>
        let k := displayKind s.kind
        mapInsert m k ((mapLookup m k).getD 0 + 1)) [] }

/-- The file name (final path component) of a path string. -/
def fileName (p : String) : String :=
  match (splitChar '/' p.toList).getLast? with
  | some f => String.mk f
  | none => p

/-- The `Path::extension`, lowered to strings: the part of the file name after
its final `.`, none when there is no `.` past the first character. -/
def pathExtension (p : String) : Option String :=
  let cs := (fileName p).toList
  let lastDot := (List.range cs.length).foldl
    (fun acc i => if cs.getD i ' ' = '.' then some i else acc) none
  match lastDot with
  | some i => if i = 0 then none else some (String.mk (cs.drop (i + 1)))
  | none => none

/-- The language tag `Symbol::to_dict` derives from the file extension. -/
def languageOf (filePath : String) : String :=
  let ext := strToLower ((pathExtension filePath).getD "")
  match ext with
  | "rs" => "rust"
  | "py" => "python"
  | "js" => "javascript"
  | "ts" => "typescript"
  | "tsx" => "typescript"
  | _ => ext

/-- The `Symbol::kind_to_string`. -/
def kindToString : SymbolKind → String
  | .Class => "class"
  | .Function => "function"
  | .Method => "method"
  | .MethodCall => "method_call"
  | .Interface => "interface"
  | .Struct => "struct"

/-- The capitalised node-type label of `Symbol::to_dict`. -/
def nodeType : SymbolKind → String
  | .MethodCall => "MethodCall"
  | .Method => "Method"
  | .Function => "Function"
  | .Class => "Class"
  | .Interface => "Interface"
  | .Struct => "Struct"

/-- serde serialization of a `Field` as a JSON object. -/
def fieldToJson (f : Field) : Json :=
  .obj [("name", .str f.name), ("field_type", .str f.field_type),
        ("start_line", .num f.start_line), ("end_line", .num f.end_line),
        ("modifiers", .arr (f.modifiers.map Json.str)),
        ("metadata", .obj f.metadata)]

/-- The `Symbol::to_dict`: the canonical report-node view of a symbol. -/
def toDict (s : Symbol) : Json :=
  let nodeId := s.file_path ++ ":" ++ s.name ++ ":" ++ toString s.start_line
  let meta0 : List (String × Json) :=
    if s.kind = SymbolKind.Class ∨ s.kind = SymbolKind.Interface then
      [("superClasses", .str (String.intercalate ", " s.parent_classes))]
    else []
  let meta := s.metadata.foldl (fun m kv => mapInsert m kv.1 kv.2) meta0
  .obj [("id", .str nodeId), ("language", .str (languageOf s.file_path)),
        ("type", .str (nodeType s.kind)), ("name", .str s.name),
        ("file", .str s.file_path), ("package", .str s.package),
        ("startLine", .num s.start_line), ("endLine", .num s.end_line),
        ("code", .str s.code),
        ("modifiers", .arr (s.modifiers.map Json.str)),
        ("fields", .arr (s.fields.map fieldToJson)),
        ("fullClassName", .str (if s.package.isEmpty then s.name
          else s.package ++ "." ++ s.name)),
        ("metadata", .obj meta), ("kind", .str (kindToString s.kind)),
        ("line", .num s.start_line),
        ("parent_classes", .arr (s.parent_classes.map Json.str)),
        ("subclasses", .arr (s.subclasses.map Json.str))]

/-- The id `to_dict` assigns to a symbol. -/
def dictId (s : Symbol) : String :=
  s.file_path ++ ":" ++ s.name ++ ":" ++ toString s.start_line

/-- The `QueryEngine::generate_report`; the wall-clock build time is passed in
as `now` (the system clock is external). -/
def generateReport (c : CacheData) (repositoryPath now : String) : Json :=
  let nodes := (allSyms c).foldl
    (fun m fs => mapInsert m (dictId fs.2) (toDict fs.2)) []
  .obj [("metadata", .obj [("build_time", .str now),
          ("cache_version", .str "1.0"),
          ("node_count", .num nodes.length),
          ("repository_path", .str repositoryPath)]),
        ("nodes", .obj nodes)]

/-- The `QueryEngine::rebuild_class_map`: recompute the class map from scratch
from every file's symbols. -/
def rebuildClassMapData (c : CacheData) : CacheData :=
  let cm := c.index.foldl (fun m fe =>
    fe.2.symbols.foldl (fun m s =>
      if s.kind = SymbolKind.Class then mapInsert m s.name fe.1 else m) m) ([])
  { c with class_map := cm }

/-! ## Indexing engine (`ASTEngine`) -/

/-- The `Symbol::new`: a fresh symbol with `line = start_line = end_line` and
all other attributes empty. -/
def Symbol.new (name : String) (kind : SymbolKind)
    (file_path : String) (start_line : Nat) (code : String) : Symbol :=
  { name := name, kind := kind, file_path := file_path, line := start_line,
    start_line := start_line, end_line := start_line, code := code,
    parent_classes := [], package := "", modifiers := [], fields := [],
    metadata := [], subclasses := [] }

/-- The cache mutation of `ASTEngine::update_file` once a file has been
re-extracted: replace the file's `FileIndex` wholesale, then insert a class
map entry for every `Class`-kind symbol of the new index. -/
def updateFileData (c : CacheData) (path : String) (mtime : Nat)
    (symbols : List Symbol) : CacheData :=
  { index := mapInsert c.index path ⟨mtime, symbols⟩,
    class_map := symbols.foldl
      (fun m s => if s.kind = SymbolKind.Class then mapInsert m s.name path
        else m) c.class_map,
    build_time := c.build_time }

/-- The `ASTEngine::remove_file_from_cache`: drop the file's `FileIndex` and
the class-map entry of every `Class`-kind symbol it contained. -/
def removeFileData (c : CacheData) (path : String) : CacheData :=
  match mapLookup c.index path with
  | none => c
  | some fi =>
    { index := mapRemove c.index path,
      class_map := fi.symbols.foldl
        (fun m s => if s.kind = SymbolKind.Class then mapRemove m s.name
          else m) c.class_map,
      build_time := c.build_time }

/-- The `ASTEngine::update_file`.  The engine state is `none` before
`use_repository` has attached a repository.  File-system reality is passed
in as `fsMtime` (`none` when the file does not exist) and the outcome of
reading-and-parsing the file as `parsed`; the returned flag records
whether the call re-extracted the file.  Note that with no engine attached
the source still re-extracts and then silently discards the result. -/
def updateFileE (qe : Option CacheData) (path : String) (fsMtime : Option Nat)
    (parsed : Except String (List Symbol)) :
    Except String (Option CacheData × Bool) :=
  match fsMtime with
  | none => .ok (qe.map (fun c => removeFileData c path), false)
  | some m =>
    let needsUpdate : Bool := match qe with
      | some c => match mapLookup c.index path with
        | some fi => fi.mtime != m
        | none => true
      | none => true
    if needsUpdate then
      match parsed with
      | .error e => .error e
      | .ok symbols => .ok (qe.map (fun c => updateFileData c path m symbols), true)
    else .ok (qe, false)

/-- The `ASTEngine::scan_project`: walk the root (the discovered supported
files, with their file-system state and extraction outcomes, are passed
in), update each file, count the successes, and save the cache.  Per-file
failures are skipped; they never abort the scan.  The parallel per-file
extraction is modelled by one admissible sequential schedule, as the merge
step is serialised in the source. -/
def scanProjectE (qe : Option CacheData) (rootExists : Bool)
    (files : List (String × Option Nat × Except String (List Symbol))) :
    Except String (Option CacheData × Nat) :=
  if rootExists then
    let r := files.foldl
      (fun (acc : Option CacheData × Nat) f =>
        match updateFileE acc.1 f.1 f.2.1 f.2.2 with
        | .ok (qe2, _) => (qe2, acc.2 + 1)
        | .error _ => acc)
      (qe, 0)
    .ok r
  else .error ("Path " ++ sq ++ "?" ++ sq ++ " does not exist")

/-- The `ASTEngine::get_statistics`: fails before attach. -/
def getStatisticsE (qe : Option CacheData) : Except String Statistics :=
  match qe with
  | some c => .ok (getStatistics c)
  | none => .error "No cache loaded"

/-- The `ASTEngine::generate_report`: fails before attach (the report-file
write is modelled as succeeding). -/
def generateReportE (qe : Option CacheData) (repositoryPath now : String) :
    Except String Json :=
  match qe with
  | some c => .ok (generateReport c repositoryPath now)
  | none => .error "No cache loaded"

/-- The `ASTEngine::search_symbols`: fails before attach.  (The serde string
rendering of each `to_dict` value is injective formatting and is left as
the `Json` value itself.) -/
def searchSymbolsE (qe : Option CacheData) (query : String) :
    Except String (List Json) :=
  match qe with
  | some c => .ok ((searchSymbols c query).map toDict)
  | none => .error "No cache loaded"

/-- The `ASTEngine::find_call_sites`: fails before attach. -/
def findCallSitesE (qe : Option CacheData) (calleeName : String) :
    Except String (List Json) :=
  match qe with
  | some c => .ok ((findCallSites c calleeName).map toDict)
  | none => .error "No cache loaded"

/-- The `ASTEngine::get_call_graph`: fails before attach. -/
def getCallGraphE (qe : Option CacheData) (entry : String) (maxDepth : Nat) :
    Except String CallGraph :=
  match qe with
  | some c => .ok (getCallGraph c entry maxDepth)
  | none => .error "No cache loaded"

/-- The `ASTEngine::get_file_structure`: fails before attach. -/
def getFileStructureE (qe : Option CacheData) (filePath : String) :
    Except String (List Json) :=
  match qe with
  | some c => .ok ((getFileStructure c filePath).map toDict)
  | none => .error "No cache loaded"

/-- The `ASTEngine::get_class_hierarchy`: fails before attach. -/
def getClassHierarchyE (qe : Option CacheData) (className : String) :
    Except String HierResult :=
  match qe with
  | some c => .ok (getClassHierarchy c className)
  | none => .error "No cache loaded"

/-! ## Association-list lemmas -/

theorem mapLookup_mapInsert (m : List (String × α)) (k n : String) (v : α) :
    mapLookup (mapInsert m k v) n = if k = n then some v else mapLookup m n := by
  induction m with
  | nil => simp [mapInsert, mapLookup]
  | cons hd t ih =>
    obtain ⟨k1, v1⟩ := hd
    by_cases h1 : k1 = k
    · subst h1
      by_cases h2 : k1 = n
      · subst h2; simp [mapInsert, mapLookup]
      · simp [mapInsert, mapLookup, h2]
    · by_cases h2 : k1 = n
      · subst h2
        have hk : ¬ k = k1 := fun h => h1 h.symm
        simp [mapInsert, mapLookup, h1, hk]
      · simp [mapInsert, mapLookup, h1, h2, ih]

theorem mapLookup_mem {m : List (String × α)} {k : String} {v : α}
    (h : mapLookup m k = some v) : (k, v) ∈ m := by
  induction m with
  | nil => simp [mapLookup] at h
  | cons hd t ih =>
    obtain ⟨k1, v1⟩ := hd
    by_cases h1 : k1 = k
    · subst h1
      simp [mapLookup] at h
      simp [h]
    · simp [mapLookup, h1] at h
      exact List.mem_cons_of_mem _ (ih h)

theorem mapLookup_eq_none_of_not_mem_keys {m : List (String × α)} {k : String}
    (h : k ∉ m.map Prod.fst) : mapLookup m k = none := by
  induction m with
  | nil => rfl
  | cons hd t ih =>
    obtain ⟨k1, v1⟩ := hd
    rw [List.map_cons] at h
    have h1 : k1 ≠ k := fun he => h (List.mem_cons.mpr (Or.inl he.symm))
    have h2 : k ∉ t.map Prod.fst := fun hm => h (List.mem_cons.mpr (Or.inr hm))
    simp [mapLookup, h1, ih h2]

/-- Well-formedness of an association-list map: keys are unique. -/
def mapWf (m : List (String × α)) : Prop := (m.map Prod.fst).Nodup

theorem mapLookup_of_mem_wf {m : List (String × α)} {k : String} {v : α}
    (hw : mapWf m) (h : (k, v) ∈ m) : mapLookup m k = some v := by
  induction m with
  | nil => simp at h
  | cons hd t ih =>
    obtain ⟨k1, v1⟩ := hd
    rcases List.mem_cons.mp h with h | h
    · obtain ⟨h1, h2⟩ := Prod.mk.injEq .. ▸ h
      simp [mapLookup, h1.symm, h2]
    · have hk : k1 ≠ k := by
        intro he
        subst he
        have : k1 ∈ t.map Prod.fst := List.mem_map.mpr ⟨(k1, v), h, rfl⟩
        exact (List.nodup_cons.mp hw).1 this
      simp [mapLookup, hk]
      exact ih (List.nodup_cons.mp hw).2 h

theorem mapLookup_mapRemove_ne (m : List (String × α)) {k n : String}
    (h : k ≠ n) : mapLookup (mapRemove m k) n = mapLookup m n := by
  induction m with
  | nil => rfl
  | cons hd t ih =>
    obtain ⟨k1, v1⟩ := hd
    by_cases h1 : k1 = k
    · subst h1
      simp [mapRemove, mapLookup, h]
    · by_cases h2 : k1 = n
      · subst h2; simp [mapRemove, mapLookup, h1]
      · simp [mapRemove, mapLookup, h1, h2, ih]

theorem mapLookup_mapRemove_self (m : List (String × α)) (k : String)
    (hw : mapWf m) : mapLookup (mapRemove m k) k = none := by
  induction m with
  | nil => rfl
  | cons hd t ih =>
    obtain ⟨k1, v1⟩ := hd
    obtain ⟨hn, hw2⟩ := List.nodup_cons.mp hw
    by_cases h1 : k1 = k
    · subst h1
      simp only [mapRemove, if_pos rfl]
      exact mapLookup_eq_none_of_not_mem_keys hn
    · simp [mapRemove, mapLookup, h1, ih hw2]

theorem mapLookup_mapInsert_self (m : List (String × α)) (k : String) (v : α) :
    mapLookup (mapInsert m k v) k = some v := by
  rw [mapLookup_mapInsert, if_pos rfl]

theorem mem_keys_mapInsert {m : List (String × α)} {k n : String} {v : α}
    (h : n ∈ (mapInsert m k v).map Prod.fst) : n = k ∨ n ∈ m.map Prod.fst := by
  induction m with
  | nil =>
    rw [show mapInsert ([] : List (String × α)) k v = [(k, v)] from rfl,
      List.map_cons] at h
    rcases List.mem_cons.mp h with h | h
    · exact Or.inl h
    · exact absurd h (List.not_mem_nil n)
  | cons hd t ih =>
    obtain ⟨k1, v1⟩ := hd
    by_cases h1 : k1 = k
    · rw [show mapInsert ((k1, v1) :: t) k v = if k1 = k then (k, v) :: t
        else (k1, v1) :: mapInsert t k v from rfl, if_pos h1, List.map_cons] at h
      rcases List.mem_cons.mp h with h | h
      · exact Or.inl h
      · exact Or.inr (by rw [List.map_cons]; exact List.mem_cons.mpr (Or.inr h))
    · rw [show mapInsert ((k1, v1) :: t) k v = if k1 = k then (k, v) :: t
        else (k1, v1) :: mapInsert t k v from rfl, if_neg h1, List.map_cons] at h
      rcases List.mem_cons.mp h with h | h
      · exact Or.inr (by rw [List.map_cons]; exact List.mem_cons.mpr (Or.inl h))
      · rcases ih h with h | h
        · exact Or.inl h
        · exact Or.inr (by rw [List.map_cons]; exact List.mem_cons.mpr (Or.inr h))

theorem mapWf_mapInsert {m : List (String × α)} (hw : mapWf m)
    (k : String) (v : α) : mapWf (mapInsert m k v) := by
  induction m with
  | nil => simp [mapInsert, mapWf]
  | cons hd t ih =>
    obtain ⟨k1, v1⟩ := hd
    obtain ⟨hn, hw2⟩ := List.nodup_cons.mp hw
    by_cases h1 : k1 = k
    · show mapWf (if k1 = k then (k, v) :: t else (k1, v1) :: mapInsert t k v)
      rw [if_pos h1]
      subst h1
      exact List.nodup_cons.mpr ⟨hn, hw2⟩
    · show mapWf (if k1 = k then (k, v) :: t else (k1, v1) :: mapInsert t k v)
      rw [if_neg h1]
      refine List.nodup_cons.mpr ⟨?_, ih hw2⟩
      intro hmem
      rcases mem_keys_mapInsert hmem with h | h
      · exact h1 h
      · exact hn h

theorem mem_keys_mapRemove {m : List (String × α)} {k n : String}
    (h : n ∈ (mapRemove m k).map Prod.fst) : n ∈ m.map Prod.fst := by
  induction m with
  | nil => exact absurd h (List.not_mem_nil n)
  | cons hd t ih =>
    obtain ⟨k1, v1⟩ := hd
    by_cases h1 : k1 = k
    · rw [show mapRemove ((k1, v1) :: t) k = if k1 = k then t
        else (k1, v1) :: mapRemove t k from rfl, if_pos h1] at h
      rw [List.map_cons]
      exact List.mem_cons.mpr (Or.inr h)
    · rw [show mapRemove ((k1, v1) :: t) k = if k1 = k then t
        else (k1, v1) :: mapRemove t k from rfl, if_neg h1, List.map_cons] at h
      rw [List.map_cons]
      rcases List.mem_cons.mp h with h | h
      · exact List.mem_cons.mpr (Or.inl h)
      · exact List.mem_cons.mpr (Or.inr (ih h))

theorem mapWf_mapRemove {m : List (String × α)} (hw : mapWf m) (k : String) :
    mapWf (mapRemove m k) := by
  induction m with
  | nil => exact hw
  | cons hd t ih =>
    obtain ⟨k1, v1⟩ := hd
    obtain ⟨hn, hw2⟩ := List.nodup_cons.mp hw
    by_cases h1 : k1 = k
    · show mapWf (if k1 = k then t else (k1, v1) :: mapRemove t k)
      rw [if_pos h1]
      exact hw2
    · show mapWf (if k1 = k then t else (k1, v1) :: mapRemove t k)
      rw [if_neg h1]
      exact List.nodup_cons.mpr ⟨fun hm => hn (mem_keys_mapRemove hm), ih hw2⟩

/-! ## The class-map lock-step invariant (C2) -/

/-- A type-like symbol kind: `Class`, `Interface`, or `Struct`. -/
def typeLike (k : SymbolKind) : Prop :=
  k = SymbolKind.Class ∨ k = SymbolKind.Interface ∨ k = SymbolKind.Struct

/-- The lock-step invariant of the specification: every class-map entry
resolves to a type-like symbol of that name in the mapped file's index. -/
def classMapInv (c : CacheData) : Prop :=
  ∀ n fp, mapLookup c.class_map n = some fp →
    ∃ fi, mapLookup c.index fp = some fi ∧
      ∃ s ∈ fi.symbols, s.name = n ∧ typeLike s.kind

/-- The code-accurate strengthening: the witnessing symbol has kind
`Class` (the engine only ever inserts `Class` symbols into the map). -/
def classMapInvC (c : CacheData) : Prop :=
  ∀ n fp, mapLookup c.class_map n = some fp →
    ∃ fi, mapLookup c.index fp = some fi ∧
      ∃ s ∈ fi.symbols, s.name = n ∧ s.kind = SymbolKind.Class

/-- States reachable through the indexing engine's write operations:
attach with an empty cache, per-file update, file removal, and the
class-map rebuild utility (`persist` does not change the state). -/
inductive Reach : CacheData → Prop where
  | init (bt : String) : Reach ⟨[], [], bt⟩
  | update (path : String) (mtime : Nat) (symbols : List Symbol) {c : CacheData} :
      Reach c → Reach (updateFileData c path mtime symbols)
  | remove (path : String) {c : CacheData} :
      Reach c → Reach (removeFileData c path)
  | rebuild {c : CacheData} : Reach c → Reach (rebuildClassMapData c)

/-- Reachability through writes in which every update re-declares each
class name the map currently assigns to the updated file (so no update
silently drops or renames a class the map still points at). -/
inductive ReachGood : CacheData → Prop where
  | init (bt : String) : ReachGood ⟨[], [], bt⟩
  | update (path : String) (mtime : Nat) (symbols : List Symbol) {c : CacheData} :
      ReachGood c →
      (∀ n, mapLookup c.class_map n = some path →
        ∃ s ∈ symbols, s.name = n ∧ s.kind = SymbolKind.Class) →
      ReachGood (updateFileData c path mtime symbols)
  | remove (path : String) {c : CacheData} :
      ReachGood c → ReachGood (removeFileData c path)
  | rebuild {c : CacheData} : ReachGood c → ReachGood (rebuildClassMapData c)

/-- The class-map effect of an update, characterised: a binding either
comes from a `Class` symbol of the new file or was present before. -/
theorem lookup_classInsertFold (symbols : List Symbol) (path : String) :
    ∀ (m : List (String × String)) (n fp : String),
      mapLookup (symbols.foldl (fun m s =>
        if s.kind = SymbolKind.Class then mapInsert m s.name path else m) m) n
        = some fp →
      (fp = path ∧ ∃ s ∈ symbols, s.kind = SymbolKind.Class ∧ s.name = n) ∨
        mapLookup m n = some fp := by
  induction symbols with
  | nil => intro m n fp h; exact Or.inr h
  | cons s t ih =>
    intro m n fp h
    simp only [List.foldl_cons] at h
    rcases ih _ n fp h with ⟨h1, s2, hs2, hk, hn⟩ | h2
    · exact Or.inl ⟨h1, s2, List.mem_cons_of_mem _ hs2, hk, hn⟩
    · by_cases hk : s.kind = SymbolKind.Class
      · rw [if_pos hk, mapLookup_mapInsert] at h2
        by_cases hn : s.name = n
        · rw [if_pos hn] at h2
          exact Or.inl ⟨(Option.some.inj h2).symm, s, List.mem_cons_self .., hk, hn⟩
        · rw [if_neg hn] at h2
          exact Or.inr h2
      · rw [if_neg hk] at h2
        exact Or.inr h2

theorem wf_classInsertFold (symbols : List Symbol) (path : String) :
    ∀ (m : List (String × String)), mapWf m →
      mapWf (symbols.foldl (fun m s =>
        if s.kind = SymbolKind.Class then mapInsert m s.name path else m) m) := by
  induction symbols with
  | nil => intro m hw; exact hw
  | cons s t ih =>
    intro m hw
    simp only [List.foldl_cons]
    by_cases hk : s.kind = SymbolKind.Class
    · rw [if_pos hk]; exact ih _ (mapWf_mapInsert hw _ _)
    · rw [if_neg hk]; exact ih _ hw

theorem lookup_classRemoveFold (symbols : List Symbol) :
    ∀ (m : List (String × String)) (n fp : String), mapWf m →
      mapLookup (symbols.foldl (fun m s =>
        if s.kind = SymbolKind.Class then mapRemove m s.name else m) m) n
        = some fp →
      mapLookup m n = some fp ∧
        ∀ s ∈ symbols, s.kind = SymbolKind.Class → s.name ≠ n := by
  induction symbols with
  | nil => intro m n fp _ h; exact ⟨h, by simp⟩
  | cons s t ih =>
    intro m n fp hw h
    simp only [List.foldl_cons] at h
    by_cases hk : s.kind = SymbolKind.Class
    · rw [if_pos hk] at h
      obtain ⟨h1, h2⟩ := ih _ n fp (mapWf_mapRemove hw _) h
      have hne : s.name ≠ n := by
        intro he
        rw [he, mapLookup_mapRemove_self _ _ hw] at h1
        exact Option.noConfusion h1
      rw [mapLookup_mapRemove_ne _ hne] at h1
      refine ⟨h1, ?_⟩
      intro s2 hs2 hk2
      rcases List.mem_cons.mp hs2 with h3 | h3
      · rw [h3]; exact hne
      · exact h2 s2 h3 hk2
    · rw [if_neg hk] at h
      obtain ⟨h1, h2⟩ := ih _ n fp hw h
      refine ⟨h1, ?_⟩
      intro s2 hs2 hk2
      rcases List.mem_cons.mp hs2 with h3 | h3
      · exact absurd (h3 ▸ hk2) hk
      · exact h2 s2 h3 hk2

theorem wf_classRemoveFold (symbols : List Symbol) :
    ∀ (m : List (String × String)), mapWf m →
      mapWf (symbols.foldl (fun m s =>
        if s.kind = SymbolKind.Class then mapRemove m s.name else m) m) := by
  induction symbols with
  | nil => intro m hw; exact hw
  | cons s t ih =>
    intro m hw
    simp only [List.foldl_cons]
    by_cases hk : s.kind = SymbolKind.Class
    · rw [if_pos hk]; exact ih _ (mapWf_mapRemove hw _)
    · rw [if_neg hk]; exact ih _ hw

theorem lookup_rebuildFold (entries : List (String × FileIndex)) :
    ∀ (m : List (String × String)) (n fp : String),
      mapLookup (entries.foldl (fun m fe =>
        fe.2.symbols.foldl (fun m s =>
          if s.kind = SymbolKind.Class then mapInsert m s.name fe.1 else m) m) m) n
        = some fp →
      (∃ fe ∈ entries, fe.1 = fp ∧
        ∃ s ∈ fe.2.symbols, s.kind = SymbolKind.Class ∧ s.name = n) ∨
        mapLookup m n = some fp := by
  induction entries with
  | nil => intro m n fp h; exact Or.inr h
  | cons fe t ih =>
    intro m n fp h
    simp only [List.foldl_cons] at h
    rcases ih _ n fp h with ⟨fe2, hfe2, h1, hs⟩ | h2
    · exact Or.inl ⟨fe2, List.mem_cons_of_mem _ hfe2, h1, hs⟩
    · rcases lookup_classInsertFold _ _ _ _ _ h2 with ⟨h1, s, hs, hk, hn⟩ | h3
      · exact Or.inl ⟨fe, List.mem_cons_self .., h1.symm, s, hs, hk, hn⟩
      · exact Or.inr h3

theorem wf_rebuildFold (entries : List (String × FileIndex)) :
    ∀ (m : List (String × String)), mapWf m →
      mapWf (entries.foldl (fun m fe =>
        fe.2.symbols.foldl (fun m s =>
          if s.kind = SymbolKind.Class then mapInsert m s.name fe.1 else m) m) m) := by
  induction entries with
  | nil => intro m hw; exact hw
  | cons fe t ih =>
    intro m hw
    simp only [List.foldl_cons]
    exact ih _ (wf_classInsertFold _ _ _ hw)

/-- The combined inductive invariant over good reachability. -/
theorem reachGood_invariants {c : CacheData} (h : ReachGood c) :
    mapWf c.index ∧ mapWf c.class_map ∧ classMapInvC c := by
  induction h with
  | init bt =>
    refine ⟨List.nodup_nil, List.nodup_nil, ?_⟩
    intro n fp h
    exact Option.noConfusion h
  | @update path mtime symbols c hr cond ih =>
    obtain ⟨hwi, hwc, hinv⟩ := ih
    refine ⟨mapWf_mapInsert hwi _ _, wf_classInsertFold _ _ _ hwc, ?_⟩
    intro n fp hl
    rcases lookup_classInsertFold symbols path c.class_map n fp hl with
      ⟨h1, s, hs, hk, hn⟩ | h2
    · refine ⟨⟨mtime, symbols⟩, ?_, s, hs, hn, hk⟩
      rw [h1]
      exact mapLookup_mapInsert_self c.index path ⟨mtime, symbols⟩
    · by_cases hfp : fp = path
      · obtain ⟨s, hs, hn, hk⟩ := cond n (hfp ▸ h2)
        refine ⟨⟨mtime, symbols⟩, ?_, s, hs, hn, hk⟩
        rw [hfp]
        exact mapLookup_mapInsert_self c.index path ⟨mtime, symbols⟩
      · obtain ⟨fi, hfi, s, hs, hn, hk⟩ := hinv n fp h2
        refine ⟨fi, ?_, s, hs, hn, hk⟩
        show mapLookup (mapInsert c.index path ⟨mtime, symbols⟩) fp = some fi
        rw [mapLookup_mapInsert, if_neg (fun he => hfp he.symm)]
        exact hfi
  | @remove path c hr ih =>
    obtain ⟨hwi, hwc, hinv⟩ := ih
    unfold removeFileData
    rcases hidx : mapLookup _ path with _ | fi
    · exact ⟨hwi, hwc, hinv⟩
    · refine ⟨mapWf_mapRemove hwi _, wf_classRemoveFold _ _ hwc, ?_⟩
      intro n fp hl
      obtain ⟨h1, h2⟩ := lookup_classRemoveFold _ _ n fp hwc hl
      obtain ⟨fi2, hfi2, s, hs, hn, hk⟩ := hinv n fp h1
      have hfp : fp ≠ path := by
        intro he
        subst he
        rw [hidx] at hfi2
        obtain rfl := Option.some.inj hfi2
        exact h2 s hs hk hn
      refine ⟨fi2, ?_, s, hs, hn, hk⟩
      rw [mapLookup_mapRemove_ne _ (fun he => hfp he.symm)]
      exact hfi2
  | @rebuild c hr ih =>
    obtain ⟨hwi, hwc, hinv⟩ := ih
    refine ⟨hwi, wf_rebuildFold _ _ List.nodup_nil, ?_⟩
    intro n fp hl
    rcases lookup_rebuildFold c.index [] n fp hl with ⟨fe, hfe, h1, s, hs, hk, hn⟩ | h2
    · refine ⟨fe.2, ?_, s, hs, hn, hk⟩
      rw [← h1]
      exact mapLookup_of_mem_wf hwi (by simpa using hfe)
    · exact Option.noConfusion h2

/-- C2 (amended).  The lock-step invariant holds in every state reachable
through the engine's writes, provided every update re-declares each class
name the map currently assigns to the updated file; the witnessing symbol
is always of kind `Class` (so in particular type-like).  Without that
proviso the invariant fails: an update that drops a class leaves a stale
entry (see the counterexample). -/
theorem classMap_lockstep_of_reachGood {c : CacheData} (h : ReachGood c) :
    classMapInv c := by
  intro n fp hl
  obtain ⟨fi, hfi, s, hs, hn, hk⟩ := (reachGood_invariants h).2.2 n fp hl
  exact ⟨fi, hfi, s, hs, hn, Or.inl hk⟩

/-- Witness for C2 (amended): a concrete good update from the empty state
satisfies the invariant. -/
theorem classMap_lockstep_of_reachGood_witness :
    classMapInv (updateFileData ⟨[], [], "t"⟩ "a.py" 1
      [Symbol.new "A" SymbolKind.Class "a.py" 1 "class A"]) := by
  refine classMap_lockstep_of_reachGood
    (ReachGood.update "a.py" 1 _ (ReachGood.init "t") ?_)
  intro n hn
  exact Option.noConfusion hn

/-- The state used by the C2 counterexample: index `a.py` with one class
`A`, then re-index `a.py` with no symbols at all. -/
def c2bad : CacheData :=
  updateFileData
    (updateFileData ⟨[], [], "t"⟩ "a.py" 1
      [Symbol.new "A" SymbolKind.Class "a.py" 1 "class A"])
    "a.py" 2 []

/-- C2 counterexample.  The claim that `classMapInv` holds in *every*
reachable state is false: after a second update of `a.py` whose
re-extraction yields no symbols, the class map still maps `A` to `a.py`,
but `a.py`'s `FileIndex` no longer contains any symbol named `A`. -/
theorem classMap_lockstep_counterexample : Reach c2bad ∧ ¬ classMapInv c2bad := by
  constructor
  · exact Reach.update "a.py" 2 [] (Reach.update "a.py" 1 _ (Reach.init "t"))
  · intro hInv
    obtain ⟨fi, hfi, s, hs, -, -⟩ := hInv "A" "a.py" rfl
    have h3 : (some fi : Option FileIndex) = some ⟨2, []⟩ := hfi.symm.trans rfl
    obtain rfl := Option.some.inj h3
    simp at hs

/-! ## Update idempotence (C4) -/

/-- After a successful mtime-guarded update with the file present at
mtime `m`, the stored `FileIndex` for the path has mtime `m`. -/
theorem updateFileE_stores_mtime {c : CacheData} {path : String} {m : Nat}
    {parsed : Except String (List Symbol)} {s1 : Option CacheData} {b1 : Bool}
    (h : updateFileE (some c) path (some m) parsed = .ok (s1, b1)) :
    ∃ c1 fi, s1 = some c1 ∧ mapLookup c1.index path = some fi ∧ fi.mtime = m := by
  rcases hl : mapLookup c.index path with _ | fi
  · cases parsed with
    | error e => simp [updateFileE, hl] at h
    | ok symbols =>
      simp [updateFileE, hl] at h
      refine ⟨updateFileData c path m symbols, ⟨m, symbols⟩, h.1.symm, ?_, rfl⟩
      exact mapLookup_mapInsert_self c.index path ⟨m, symbols⟩
  · by_cases hm : fi.mtime = m
    · simp [updateFileE, hl, hm] at h
      exact ⟨c, fi, h.1.symm, hl, hm⟩
    · cases parsed with
      | error e => simp [updateFileE, hl, hm] at h
      | ok symbols =>
        simp [updateFileE, hl, hm] at h
        refine ⟨updateFileData c path m symbols, ⟨m, symbols⟩, h.1.symm, ?_, rfl⟩
        exact mapLookup_mapInsert_self c.index path ⟨m, symbols⟩

/-- C4.  Update idempotence: if `update(path)` succeeds and the file's
modification time is unchanged when `update(path)` is called again, the
second call re-extracts nothing (its flag is `false`, whatever a renewed
extraction would have produced) and leaves the engine state exactly as the
first call left it. -/
theorem updateFile_idempotent {c : CacheData} {path : String} {m : Nat}
    {parsed : Except String (List Symbol)} {s1 : Option CacheData} {b1 : Bool}
    (parsed2 : Except String (List Symbol))
    (h : updateFileE (some c) path (some m) parsed = .ok (s1, b1)) :
    updateFileE s1 path (some m) parsed2 = .ok (s1, false) := by
  obtain ⟨c1, fi, rfl, hfi, hm⟩ := updateFileE_stores_mtime h
  simp only [updateFileE, hfi, hm, bne_self_eq_false, Bool.false_eq_true, if_false]

/-- Witness for C4 at a concrete already-indexed file with unchanged
mtime: the second update is a no-op. -/
theorem updateFile_idempotent_witness :
    updateFileE (some ⟨[("f.py", ⟨5, []⟩)], [], "t"⟩) "f.py" (some 5) (.ok []) =
      .ok (some ⟨[("f.py", ⟨5, []⟩)], [], "t"⟩, false) :=
  updateFile_idempotent (.ok []) (rfl :
    updateFileE (some ⟨[("f.py", ⟨5, []⟩)], [], "t"⟩) "f.py" (some 5) (.ok []) =
      .ok (some ⟨[("f.py", ⟨5, []⟩)], [], "t"⟩, false))

/-! ## Pre-attach failure semantics (C6) -/

/-- C6 (amended).  Every *read* operation of the engine -- statistics,
report, symbol search, call-site lookup, call graph, file structure, class
hierarchy -- invoked before `use_repository` has attached a repository
returns the "No cache loaded" error.  (The write operations `update_file`
and `scan_project` do not: see the counterexample.) -/
theorem preAttach_read_ops_error (query callee filePath className repoPath
    now entry : String) (maxDepth : Nat) :
    getStatisticsE none = .error "No cache loaded" ∧
    generateReportE none repoPath now = .error "No cache loaded" ∧
    searchSymbolsE none query = .error "No cache loaded" ∧
    findCallSitesE none callee = .error "No cache loaded" ∧
    getCallGraphE none entry maxDepth = .error "No cache loaded" ∧
    getFileStructureE none filePath = .error "No cache loaded" ∧
    getClassHierarchyE none className = .error "No cache loaded" :=
  ⟨rfl, rfl, rfl, rfl, rfl, rfl, rfl⟩

/-- C6 counterexample.  The claim that *every* operation fails before
attach is false: `update_file` on an existing, parseable file succeeds
(re-extracting and silently discarding the result), and `scan_project`
succeeds and even reports the file as processed. -/
theorem preAttach_write_ops_succeed :
    updateFileE none "a.py" (some 0) (.ok []) = .ok (none, true) ∧
    scanProjectE none true [("a.py", some 0, .ok [])] = .ok (none, 1) :=
  ⟨rfl, rfl⟩

/-! ## Class hierarchy symmetry (C5) -/

theorem strListContains_iff {a : String} :
    ∀ {l : List String}, l.contains a = true ↔ a ∈ l := by
  intro l
  induction l with
  | nil => simp
  | cons b t ih => simp [List.contains_cons, ih, beq_iff_eq]

/-- The `(fp, s)` pairs of the index are exactly the flattened symbols. -/
theorem mem_allSyms {c : CacheData} {fp : String} {fi : FileIndex} {s : Symbol}
    (h1 : (fp, fi) ∈ c.index) (h2 : s ∈ fi.symbols) : (fp, s) ∈ allSyms c :=
  List.mem_flatMap.mpr ⟨(fp, fi), h1, List.mem_map.mpr ⟨s, h2, rfl⟩⟩

/-- Any one symbol's parent list is bounded by the index-wide total. -/
theorem parents_le_totalParents {c : CacheData} {fp : String} {s : Symbol}
    (h : (fp, s) ∈ allSyms c) : s.parent_classes.length ≤ totalParents c := by
  unfold totalParents
  exact List.single_le_sum (fun x _ => Nat.zero_le x) _
    (List.mem_map.mpr ⟨(fp, s), h, rfl⟩)

/-- Unpack a successful `find_class_symbol_in_file`: the file is indexed,
the symbol is in it, and it is a `Class` of the requested name. -/
theorem findClassSymbolInFile_spec {c : CacheData} {className filePath : String}
    {s : Symbol} (h : findClassSymbolInFile c className filePath = some s) :
    ∃ fi, mapLookup c.index filePath = some fi ∧ s ∈ fi.symbols ∧
      s.kind = SymbolKind.Class ∧ s.name = className := by
  unfold findClassSymbolInFile at h
  rcases hidx : mapLookup c.index filePath with _ | fi
  · rw [hidx] at h
    exact Option.noConfusion h
  · rw [hidx] at h
    have hm := List.mem_of_find?_eq_some h
    have hp := List.find?_some h
    have hp2 := of_decide_eq_true hp
    exact ⟨fi, rfl, hm, hp2.1, hp2.2⟩

/-- The upward loop only ever appends to its accumulator. -/
theorem upLoop_acc_mono (c : CacheData) (className : String) :
    ∀ (fuel : Nat) (queue visited : List String) (parents : List HNode)
      (e : HNode), e ∈ parents → e ∈ upLoop c className fuel queue visited parents := by
  intro fuel
  induction fuel with
  | zero => intro queue visited parents e he; exact he
  | succ f ih =>
    intro queue visited parents e he
    cases queue with
    | nil => exact he
    | cons current rest =>
      simp only [upLoop]
      by_cases hv : visited.contains current
      · rw [if_pos hv]
        exact ih rest visited parents e he
      · rw [if_neg hv]
        split
        · exact ih rest (current :: visited) parents e he
        · split
          · exact ih rest (current :: visited) parents e he
          · refine ih _ (current :: visited) _ e ?_
            by_cases hcn : current ≠ className
            · rw [if_pos hcn]
              exact List.mem_append_left _ he
            · rw [if_neg hcn]
              exact he

/-- If a name sits at position `k` of the queue, is unvisited, differs
from the starting class, and resolves through the class map to a `Class`
symbol, then with more than `k` units of fuel the upward loop emits a
parent entry for it. -/
theorem upLoop_reaches (c : CacheData) (className A fA : String) (sA : Symbol)
    (hA1 : mapLookup c.class_map A = some fA)
    (hA2 : findClassSymbolInFile c A fA = some sA)
    (hneq : A ≠ className) :
    ∀ (fuel k : Nat) (queue visited : List String) (parents : List HNode),
      queue.get? k = some A → ¬ visited.contains A = true → k < fuel →
      ∃ e ∈ upLoop c className fuel queue visited parents, e.name = A := by
  intro fuel
  induction fuel with
  | zero => intro k q v p _ _ h3; exact absurd h3 (Nat.not_lt_zero k)
  | succ f ih =>
    intro k queue visited parents hq hnv hk
    cases queue with
    | nil => simp at hq
    | cons current rest =>
      simp only [upLoop]
      by_cases hv : visited.contains current
      · rw [if_pos hv]
        have hcur : current ≠ A := fun he => hnv (he ▸ hv)
        cases k with
        | zero =>
          have : current = A := by simpa using hq
          exact absurd this hcur
        | succ k2 =>
          have hq2 : rest.get? k2 = some A := by simpa using hq
          exact ih k2 rest visited parents hq2 hnv (Nat.lt_of_succ_lt_succ hk)
      · rw [if_neg hv]
        by_cases hcur : current = A
        · subst hcur
          simp only [hA1, hA2]
          rw [if_pos hneq]
          exact ⟨⟨current, fA, sA.start_line⟩,
            upLoop_acc_mono c className f _ _ _ _
              (List.mem_append_right _ (List.mem_singleton.mpr rfl)), rfl⟩
        · have hk0 : ∃ k2, k = k2 + 1 ∧ rest.get? k2 = some A := by
            cases k with
            | zero =>
              have : current = A := by simpa using hq
              exact absurd this hcur
            | succ k2 => exact ⟨k2, rfl, by simpa using hq⟩
          obtain ⟨k2, rfl, hq2⟩ := hk0
          have hnv2 : ¬ (current :: visited).contains A = true := by
            intro hc
            rcases strListContains_iff.mp hc with hc2
            rcases List.mem_cons.mp hc2 with hc3 | hc3
            · exact hcur hc3.symm
            · exact hnv (strListContains_iff.mpr hc3)
          have hk2f : k2 < f := Nat.lt_of_succ_lt_succ hk
          split
          · exact ih k2 rest (current :: visited) parents hq2 hnv2 hk2f
          · split
            · exact ih k2 rest (current :: visited) parents hq2 hnv2 hk2f
            · refine ih k2 _ (current :: visited) _ ?_ hnv2 hk2f
              obtain ⟨hlt, -⟩ := List.get?_eq_some.mp hq2
              rw [List.get?_append hlt]
              exact hq2

/-- C5.  Class hierarchy symmetry: for distinct class names `A` and `B`
both resolvable through the class map to their declaring `Class` symbols,
if `B`'s `parent_classes` contains `A` then `get_class_hierarchy(B)` lists
`A` among its parents and `get_class_hierarchy(A)` lists `B` among its
children. -/
theorem class_hierarchy_symmetric (c : CacheData) {A B fA fB : String}
    {sA sB : Symbol}
    (hBm : mapLookup c.class_map B = some fB)
    (hBs : findClassSymbolInFile c B fB = some sB)
    (hAm : mapLookup c.class_map A = some fA)
    (hAs : findClassSymbolInFile c A fA = some sA)
    (hpar : A ∈ sB.parent_classes) (hAB : A ≠ B) :
    (∃ hi, getClassHierarchy c B = .ok hi ∧ ∃ p ∈ hi.parents, p.name = A) ∧
    (∃ hi, getClassHierarchy c A = .ok hi ∧ ∃ ch ∈ hi.children, ch.name = B) := by
  obtain ⟨fiB, hidxB, hmemB, hkindB, hnameB⟩ := findClassSymbolInFile_spec hBs
  have hParBound : sB.parent_classes.length ≤ totalParents c :=
    parents_le_totalParents (mem_allSyms (mapLookup_mem hidxB) hmemB)
  constructor
  · -- upward: A appears among B's parents
    have hfindB : findClassSymbol c B = some sB := by
      simp only [findClassSymbol, hBm, hBs]
    have hokB : getClassHierarchy c B =
        .ok ⟨B, fB, upLoop c B (hierFuel c) [B] [] [], childrenScan c B⟩ := by
      simp only [getClassHierarchy, hfindB, hBm]
    refine ⟨_, hokB, ?_⟩
    have hpos : 0 < hierFuel c := by
      unfold hierFuel
      exact Nat.mul_pos (by omega) (by omega)
    obtain ⟨hf, hhf⟩ : ∃ hf, hierFuel c = hf + 1 :=
      ⟨hierFuel c - 1, (Nat.succ_pred_eq_of_pos hpos).symm⟩
    have hstep : upLoop c B (hf + 1) [B] [] [] =
        upLoop c B hf (sB.parent_classes.filter
          (fun p => ¬ (B :: ([] : List String)).contains p)) [B] [] := by
      simp only [upLoop]
      rw [if_neg (show ¬ ([] : List String).contains B = true from
        fun h => Bool.false_ne_true h)]
      simp only [hBm, hBs]
      rw [if_neg (fun h => h rfl), List.nil_append]
    rw [hhf, hstep]
    have hmemFilter : A ∈ sB.parent_classes.filter
        (fun p => ¬ (B :: ([] : List String)).contains p) := by
      refine List.mem_filter.mpr ⟨hpar, ?_⟩
      simp only [decide_eq_true_eq]
      intro hc
      rcases List.mem_cons.mp (strListContains_iff.mp hc) with h | h
      · exact hAB h
      · exact absurd h (List.not_mem_nil A)
    obtain ⟨k, hkA⟩ := List.mem_iff_get?.mp hmemFilter
    obtain ⟨hklt, -⟩ := List.get?_eq_some.mp hkA
    have hkf : k < hf := by
      have h1 : (sB.parent_classes.filter
          (fun p => ¬ (B :: ([] : List String)).contains p)).length ≤
          sB.parent_classes.length := List.length_filter_le _ _
      have h2 : 2 * (totalParents c + 2) ≤ hf + 1 := by
        rw [← hhf]
        unfold hierFuel
        exact Nat.mul_le_mul_right _ (by omega)
      omega
    refine upLoop_reaches c B A fA sA hAm hAs hAB hf k _ [B] [] hkA ?_ hkf
    intro hc
    rcases List.mem_cons.mp (strListContains_iff.mp hc) with h | h
    · exact hAB h
    · exact absurd h (List.not_mem_nil A)
  · -- downward: B appears among A's children
    have hfindA : findClassSymbol c A = some sA := by
      simp only [findClassSymbol, hAm, hAs]
    have hokA : getClassHierarchy c A =
        .ok ⟨A, fA, upLoop c A (hierFuel c) [A] [] [], childrenScan c A⟩ := by
      simp only [getClassHierarchy, hfindA, hAm]
    refine ⟨_, hokA, ⟨sB.name, fB, sB.start_line⟩, ?_, hnameB⟩
    unfold childrenScan
    refine List.mem_flatMap.mpr ⟨(fB, fiB), mapLookup_mem hidxB, ?_⟩
    refine List.mem_filterMap.mpr ⟨sB, hmemB, ?_⟩
    rw [if_pos ⟨hkindB, hpar⟩]

/-! ## Cache store serialization (C1)

The specification declares the index serialization format internal and
private: any self-consistent serialization preserving `CacheData`'s field
set is acceptable (spec §6); the source delegates it to the external
`bincode` crate.  Modelled from the spec: a token-stream serialization of
`CacheData`, with an executable encoder and decoder. -/

/-- One serialized token. -/
inductive Tok where
  | nat (n : Nat) : Tok
  | int (i : Int) : Tok
  | str (s : String) : Tok
deriving DecidableEq

/-- Encode a natural number. -/
def encNat (n : Nat) : List Tok := [.nat n]

/-- Encode an integer. -/
def encInt (i : Int) : List Tok := [.int i]

/-- Encode a string. -/
def encStr (s : String) : List Tok := [.str s]

def decNat : List Tok → Option (Nat × List Tok)
  | .nat n :: rest => some (n, rest)
  | _ => none

def decInt : List Tok → Option (Int × List Tok)
  | .int i :: rest => some (i, rest)
  | _ => none

def decStr : List Tok → Option (String × List Tok)
  | .str s :: rest => some (s, rest)
  | _ => none

theorem decNat_eq (n : Nat) (rest : List Tok) :
    decNat (.nat n :: rest) = some (n, rest) := rfl

theorem decInt_eq (i : Int) (rest : List Tok) :
    decInt (.int i :: rest) = some (i, rest) := rfl

theorem decStr_eq (s : String) (rest : List Tok) :
    decStr (.str s :: rest) = some (s, rest) := rfl

/-- Encode a list: its length, then each element in order. -/
def encList (enc : α → List Tok) (xs : List α) : List Tok :=
  .nat xs.length :: xs.flatMap enc

def decListN (dec : List Tok → Option (α × List Tok)) :
    Nat → List Tok → Option (List α × List Tok)
  | 0, ts => some ([], ts)
  | n + 1, ts =>
    match dec ts with
    | some (a, ts2) =>
      match decListN dec n ts2 with
      | some (as, ts3) => some (a :: as, ts3)
      | none => none
    | none => none

def decList (dec : List Tok → Option (α × List Tok)) :
    List Tok → Option (List α × List Tok)
  | .nat n :: rest => decListN dec n rest
  | _ => none

theorem decListN_enc (dec : List Tok → Option (α × List Tok))
    (enc : α → List Tok) (xs : List α)
    (hyp : ∀ a ∈ xs, ∀ rest, dec (enc a ++ rest) = some (a, rest)) :
    ∀ rest, decListN dec xs.length (xs.flatMap enc ++ rest) = some (xs, rest) := by
  induction xs with
  | nil => intro rest; rfl
  | cons x t ih =>
    intro rest
    have hx := hyp x (List.mem_cons_self ..) (t.flatMap enc ++ rest)
    have ht := ih (fun a ha => hyp a (List.mem_cons_of_mem _ ha)) rest
    simp only [List.flatMap_cons, List.length_cons, List.append_assoc]
    simp only [decListN, hx, ht]

theorem decList_enc (dec : List Tok → Option (α × List Tok))
    (enc : α → List Tok) (xs : List α)
    (hyp : ∀ a ∈ xs, ∀ rest, dec (enc a ++ rest) = some (a, rest)) :
    ∀ rest, decList dec (encList enc xs ++ rest) = some (xs, rest) := by
  intro rest
  simp only [encList, List.cons_append, decList]
  exact decListN_enc dec enc xs hyp rest

mutual

/-- Depth of a JSON value, used as decoder fuel. -/
def jdepth : Json → Nat
  | .null => 0
  | .bool _ => 0
  | .num _ => 0
  | .str _ => 0
  | .arr xs => jdepthList xs + 1
  | .obj xs => jdepthObj xs + 1

/-- Maximum depth of a list of JSON values. -/
def jdepthList : List Json → Nat
  | [] => 0
  | j :: t => max (jdepth j) (jdepthList t)

/-- Maximum depth of the values of a JSON object. -/
def jdepthObj : List (String × Json) → Nat
  | [] => 0
  | kv :: t => max (jdepth kv.2) (jdepthObj t)

end

mutual

/-- Encode a JSON value: a constructor tag, then the payload. -/
def encJson : Json → List Tok
  | .null => [.nat 0]
  | .bool b => [.nat 1, .nat (if b then 1 else 0)]
  | .num n => [.nat 2, .int n]
  | .str s => [.nat 3, .str s]
  | .arr xs => .nat 4 :: .nat xs.length :: encJsonList xs
  | .obj xs => .nat 5 :: .nat xs.length :: encJsonObj xs

/-- Encode the elements of a JSON array. -/
def encJsonList : List Json → List Tok
  | [] => []
  | j :: t => encJson j ++ encJsonList t

/-- Encode the entries of a JSON object. -/
def encJsonObj : List (String × Json) → List Tok
  | [] => []
  | kv :: t => .str kv.1 :: (encJson kv.2 ++ encJsonObj t)

end

/-- Decode `n` JSON values with a fixed element decoder. -/
def decJsonListAux (dec : List Tok → Option (Json × List Tok)) :
    Nat → List Tok → Option (List Json × List Tok)
  | 0, ts => some ([], ts)
  | n + 1, ts =>
    match dec ts with
    | some (j, ts2) =>
      match decJsonListAux dec n ts2 with
      | some (js, ts3) => some (j :: js, ts3)
      | none => none
    | none => none

/-- Decode `n` JSON object entries with a fixed value decoder. -/
def decJsonObjAux (dec : List Tok → Option (Json × List Tok)) :
    Nat → List Tok → Option (List (String × Json) × List Tok)
  | 0, ts => some ([], ts)
  | n + 1, ts =>
    match ts with
    | .str k :: ts1 =>
      match dec ts1 with
      | some (v, ts2) =>
        match decJsonObjAux dec n ts2 with
        | some (kvs, ts3) => some ((k, v) :: kvs, ts3)
        | none => none
      | none => none
    | _ => none

/-- Decode a JSON value, with fuel bounding the nesting depth. -/
def decJson : Nat → List Tok → Option (Json × List Tok)
  | 0, _ => none
  | fuel + 1, ts =>
    match ts with
    | .nat 0 :: rest => some (.null, rest)
    | .nat 1 :: .nat b :: rest => some (.bool (b == 1), rest)
    | .nat 2 :: .int i :: rest => some (.num i, rest)
    | .nat 3 :: .str s :: rest => some (.str s, rest)
    | .nat 4 :: .nat n :: rest =>
      match decJsonListAux (decJson fuel) n rest with
      | some (xs, rest2) => some (.arr xs, rest2)
      | none => none
    | .nat 5 :: .nat n :: rest =>
      match decJsonObjAux (decJson fuel) n rest with
      | some (xs, rest2) => some (.obj xs, rest2)
      | none => none
    | _ => none

theorem jdepth_le_jdepthList {x : Json} :
    ∀ {xs : List Json}, x ∈ xs → jdepth x ≤ jdepthList xs := by
  intro xs h
  induction xs with
  | nil => exact absurd h (List.not_mem_nil x)
  | cons y t ih =>
    rcases List.mem_cons.mp h with h | h
    · rw [h]; exact le_max_left _ _
    · exact le_trans (ih h) (le_max_right _ _)

theorem jdepth_le_jdepthObj {k : String} {v : Json} :
    ∀ {xs : List (String × Json)}, (k, v) ∈ xs → jdepth v ≤ jdepthObj xs := by
  intro xs h
  induction xs with
  | nil => exact absurd h (List.not_mem_nil (k, v))
  | cons y t ih =>
    rcases List.mem_cons.mp h with h | h
    · rw [← h]; exact le_max_left _ _
    · exact le_trans (ih h) (le_max_right _ _)

theorem decJsonListAux_enc (dec : List Tok → Option (Json × List Tok))
    (xs : List Json)
    (hyp : ∀ j ∈ xs, ∀ rest, dec (encJson j ++ rest) = some (j, rest)) :
    ∀ rest, decJsonListAux dec xs.length (encJsonList xs ++ rest) = some (xs, rest) := by
  induction xs with
  | nil => intro rest; rfl
  | cons x t ih =>
    intro rest
    have hx := hyp x (List.mem_cons_self ..) (encJsonList t ++ rest)
    have ht := ih (fun j hj => hyp j (List.mem_cons_of_mem _ hj)) rest
    simp only [encJsonList, List.length_cons, List.append_assoc]
    simp only [decJsonListAux, hx, ht]

theorem decJsonObjAux_enc (dec : List Tok → Option (Json × List Tok))
    (xs : List (String × Json))
    (hyp : ∀ kv ∈ xs, ∀ rest, dec (encJson kv.2 ++ rest) = some (kv.2, rest)) :
    ∀ rest, decJsonObjAux dec xs.length (encJsonObj xs ++ rest) = some (xs, rest) := by
  induction xs with
  | nil => intro rest; rfl
  | cons x t ih =>
    obtain ⟨k, v⟩ := x
    intro rest
    have hx := hyp (k, v) (List.mem_cons_self ..) (encJsonObj t ++ rest)
    have ht := ih (fun kv hkv => hyp kv (List.mem_cons_of_mem _ hkv)) rest
    simp only [encJsonObj, List.length_cons, List.cons_append, List.append_assoc]
    simp only [decJsonObjAux, hx, ht]

theorem decJson_enc : ∀ (fuel : Nat) (j : Json), jdepth j < fuel →
    ∀ rest, decJson fuel (encJson j ++ rest) = some (j, rest) := by
  intro fuel
  induction fuel with
  | zero => intro j h; exact absurd h (Nat.not_lt_zero _)
  | succ f ih =>
    intro j hd rest
    cases j with
    | null => rfl
    | bool b => cases b <;> rfl
    | num n => rfl
    | str s => rfl
    | arr xs =>
      have hxs : ∀ x ∈ xs, jdepth x < f := by
        intro x hx
        have h1 : jdepthList xs + 1 < f + 1 := by simpa [jdepth] using hd
        exact lt_of_le_of_lt (jdepth_le_jdepthList hx) (Nat.lt_of_succ_lt_succ h1)
      have hlist := decJsonListAux_enc (decJson f) xs
        (fun x hx rest2 => ih x (hxs x hx) rest2) rest
      simp only [encJson, List.cons_append, decJson, hlist]
    | obj xs =>
      have hxs : ∀ kv ∈ xs, jdepth kv.2 < f := by
        intro kv hkv
        obtain ⟨k, v⟩ := kv
        have h1 : jdepthObj xs + 1 < f + 1 := by simpa [jdepth] using hd
        exact lt_of_le_of_lt (jdepth_le_jdepthObj hkv) (Nat.lt_of_succ_lt_succ h1)
      have hobj := decJsonObjAux_enc (decJson f) xs
        (fun kv hkv rest2 => ih kv.2 (hxs kv hkv) rest2) rest
      simp only [encJson, List.cons_append, decJson, hobj]

/-- Encode a JSON value prefixed with sufficient decoder fuel. -/
def encJsonF (j : Json) : List Tok := .nat (jdepth j + 1) :: encJson j

/-- Decode a fuel-prefixed JSON value. -/
def decJsonF : List Tok → Option (Json × List Tok)
  | .nat fuel :: rest => decJson fuel rest
  | _ => none

theorem decJsonF_enc (j : Json) (rest : List Tok) :
    decJsonF (encJsonF j ++ rest) = some (j, rest) := by
  simp only [encJsonF, List.cons_append, decJsonF]
  exact decJson_enc (jdepth j + 1) j (Nat.lt_succ_self _) rest

/-- Encode a metadata entry (string key, JSON value). -/
def encPairSJ (kv : String × Json) : List Tok := encStr kv.1 ++ encJsonF kv.2

def decPairSJ (ts : List Tok) : Option ((String × Json) × List Tok) := do
  let (k, ts) ← decStr ts
  let (v, ts) ← decJsonF ts
  some ((k, v), ts)

theorem decPairSJ_enc (kv : String × Json) (rest : List Tok) :
    decPairSJ (encPairSJ kv ++ rest) = some (kv, rest) := by
  obtain ⟨k, v⟩ := kv
  simp only [encPairSJ, encStr, List.append_assoc, List.singleton_append,
    List.cons_append, List.nil_append]
  simp only [decPairSJ, Option.bind_eq_bind, decStr_eq, Option.some_bind,
    decJsonF_enc]

/-- Encode a symbol kind as its variant index. -/
def encKind (k : SymbolKind) : List Tok :=
  match k with
  | .Class => [.nat 0]
  | .Function => [.nat 1]
  | .Method => [.nat 2]
  | .MethodCall => [.nat 3]
  | .Interface => [.nat 4]
  | .Struct => [.nat 5]

def decKind : List Tok → Option (SymbolKind × List Tok)
  | .nat 0 :: rest => some (.Class, rest)
  | .nat 1 :: rest => some (.Function, rest)
  | .nat 2 :: rest => some (.Method, rest)
  | .nat 3 :: rest => some (.MethodCall, rest)
  | .nat 4 :: rest => some (.Interface, rest)
  | .nat 5 :: rest => some (.Struct, rest)
  | _ => none

theorem decKind_enc (k : SymbolKind) (rest : List Tok) :
    decKind (encKind k ++ rest) = some (k, rest) := by
  cases k <;> rfl

/-- Encode a `Field`. -/
def encField (f : Field) : List Tok :=
  encStr f.name ++ encStr f.field_type ++ encNat f.start_line ++
    encNat f.end_line ++ encList encStr f.modifiers ++
    encList encPairSJ f.metadata

def decField (ts : List Tok) : Option (Field × List Tok) := do
  let (name, ts) ← decStr ts
  let (ft, ts) ← decStr ts
  let (sl, ts) ← decNat ts
  let (el, ts) ← decNat ts
  let (mods, ts) ← decList decStr ts
  let (md, ts) ← decList decPairSJ ts
  some (⟨name, ft, sl, el, mods, md⟩, ts)

theorem decList_encStr (xs : List String) (rest : List Tok) :
    decList decStr (encList encStr xs ++ rest) = some (xs, rest) :=
  decList_enc decStr encStr xs (fun _ _ _ => rfl) rest

theorem decList_encPairSJ (xs : List (String × Json)) (rest : List Tok) :
    decList decPairSJ (encList encPairSJ xs ++ rest) = some (xs, rest) :=
  decList_enc decPairSJ encPairSJ xs (fun a _ r => decPairSJ_enc a r) rest

theorem decField_enc (f : Field) (rest : List Tok) :
    decField (encField f ++ rest) = some (f, rest) := by
  obtain ⟨name, ft, sl, el, mods, md⟩ := f
  simp only [encField, encStr, encNat, List.append_assoc, List.singleton_append,
    List.cons_append, List.nil_append]
  simp only [decField, Option.bind_eq_bind, decStr_eq, decNat_eq,
    Option.some_bind, decList_encStr, decList_encPairSJ]

/-- Encode a `Symbol`, field by field. -/
def encSymbol (s : Symbol) : List Tok :=
  encStr s.name ++ encKind s.kind ++ encStr s.file_path ++ encNat s.line ++
    encNat s.start_line ++ encNat s.end_line ++ encStr s.code ++
    encList encStr s.parent_classes ++ encStr s.package ++
    encList encStr s.modifiers ++ encList encField s.fields ++
    encList encPairSJ s.metadata ++ encList encStr s.subclasses

def decSymbol (ts : List Tok) : Option (Symbol × List Tok) := do
  let (name, ts) ← decStr ts
  let (kind, ts) ← decKind ts
  let (fp, ts) ← decStr ts
  let (line, ts) ← decNat ts
  let (sl, ts) ← decNat ts
  let (el, ts) ← decNat ts
  let (code, ts) ← decStr ts
  let (pc, ts) ← decList decStr ts
  let (pkg, ts) ← decStr ts
  let (mods, ts) ← decList decStr ts
  let (fields, ts) ← decList decField ts
  let (md, ts) ← decList decPairSJ ts
  let (subs, ts) ← decList decStr ts
  some (⟨name, kind, fp, line, sl, el, code, pc, pkg, mods, fields, md, subs⟩, ts)

theorem decList_encField (xs : List Field) (rest : List Tok) :
    decList decField (encList encField xs ++ rest) = some (xs, rest) :=
  decList_enc decField encField xs (fun a _ r => decField_enc a r) rest

theorem decSymbol_enc (s : Symbol) (rest : List Tok) :
    decSymbol (encSymbol s ++ rest) = some (s, rest) := by
  obtain ⟨name, kind, fp, line, sl, el, code, pc, pkg, mods, fields, md, subs⟩ := s
  simp only [encSymbol, encStr, encNat, List.append_assoc, List.singleton_append,
    List.cons_append, List.nil_append]
  dsimp only [decSymbol, Option.bind_eq_bind]
  rw [decStr_eq]
  dsimp only [Option.some_bind]
  rw [decKind_enc]
  dsimp only [Option.some_bind]
  rw [decStr_eq]
  dsimp only [Option.some_bind]
  rw [decNat_eq]
  dsimp only [Option.some_bind]
  rw [decNat_eq]
  dsimp only [Option.some_bind]
  rw [decNat_eq]
  dsimp only [Option.some_bind]
  rw [decStr_eq]
  dsimp only [Option.some_bind]
  rw [decList_encStr]
  dsimp only [Option.some_bind]
  rw [decStr_eq]
  dsimp only [Option.some_bind]
  rw [decList_encStr]
  dsimp only [Option.some_bind]
  rw [decList_encField]
  dsimp only [Option.some_bind]
  rw [decList_encPairSJ]
  dsimp only [Option.some_bind]
  rw [decList_encStr]
  dsimp only [Option.some_bind]

/-- Encode a `FileIndex`. -/
def encFileIndex (fi : FileIndex) : List Tok :=
  encNat fi.mtime ++ encList encSymbol fi.symbols

def decFileIndex (ts : List Tok) : Option (FileIndex × List Tok) := do
  let (mt, ts) ← decNat ts
  let (syms, ts) ← decList decSymbol ts
  some (⟨mt, syms⟩, ts)

theorem decList_encSymbol (xs : List Symbol) (rest : List Tok) :
    decList decSymbol (encList encSymbol xs ++ rest) = some (xs, rest) :=
  decList_enc decSymbol encSymbol xs (fun a _ r => decSymbol_enc a r) rest

theorem decFileIndex_enc (fi : FileIndex) (rest : List Tok) :
    decFileIndex (encFileIndex fi ++ rest) = some (fi, rest) := by
  obtain ⟨mt, syms⟩ := fi
  simp only [encFileIndex, encNat, List.append_assoc, List.singleton_append,
    List.cons_append, List.nil_append]
  simp only [decFileIndex, Option.bind_eq_bind, decNat_eq, Option.some_bind,
    decList_encSymbol]

/-- Encode one `index` entry. -/
def encPairSF (kv : String × FileIndex) : List Tok :=
  encStr kv.1 ++ encFileIndex kv.2

def decPairSF (ts : List Tok) : Option ((String × FileIndex) × List Tok) := do
  let (k, ts) ← decStr ts
  let (v, ts) ← decFileIndex ts
  some ((k, v), ts)

theorem decPairSF_enc (kv : String × FileIndex) (rest : List Tok) :
    decPairSF (encPairSF kv ++ rest) = some (kv, rest) := by
  obtain ⟨k, v⟩ := kv
  simp only [encPairSF, encStr, List.append_assoc, List.singleton_append,
    List.cons_append, List.nil_append]
  simp only [decPairSF, Option.bind_eq_bind, decStr_eq, Option.some_bind,
    decFileIndex_enc]

/-- Encode one `class_map` entry. -/
def encPairSS (kv : String × String) : List Tok := encStr kv.1 ++ encStr kv.2

def decPairSS (ts : List Tok) : Option ((String × String) × List Tok) := do
  let (k, ts) ← decStr ts
  let (v, ts) ← decStr ts
  some ((k, v), ts)

theorem decPairSS_enc (kv : String × String) (rest : List Tok) :
    decPairSS (encPairSS kv ++ rest) = some (kv, rest) := by
  obtain ⟨k, v⟩ := kv
  rfl

/-- Serialize a whole `CacheData`: index, class map, build time. -/
def encCacheData (c : CacheData) : List Tok :=
  encList encPairSF c.index ++ encList encPairSS c.class_map ++
    encStr c.build_time

def decCacheData (ts : List Tok) : Option (CacheData × List Tok) := do
  let (idx, ts) ← decList decPairSF ts
  let (cm, ts) ← decList decPairSS ts
  let (bt, ts) ← decStr ts
  some (⟨idx, cm, bt⟩, ts)

theorem decList_encPairSF (xs : List (String × FileIndex)) (rest : List Tok) :
    decList decPairSF (encList encPairSF xs ++ rest) = some (xs, rest) :=
  decList_enc decPairSF encPairSF xs (fun a _ r => decPairSF_enc a r) rest

theorem decList_encPairSS (xs : List (String × String)) (rest : List Tok) :
    decList decPairSS (encList encPairSS xs ++ rest) = some (xs, rest) :=
  decList_enc decPairSS encPairSS xs (fun a _ r => decPairSS_enc a r) rest

theorem decCacheData_enc (c : CacheData) (rest : List Tok) :
    decCacheData (encCacheData c ++ rest) = some (c, rest) := by
  obtain ⟨idx, cm, bt⟩ := c
  simp only [encCacheData, encStr, List.append_assoc, List.singleton_append,
    List.cons_append, List.nil_append]
  simp only [decCacheData, Option.bind_eq_bind, decStr_eq, Option.some_bind,
    decList_encPairSF, decList_encPairSS]

/-- The cache directory's index file: `none` when `ast_index.bin` does not
exist (or the directory is missing), `some bytes` otherwise. -/
def CacheStore : Type := Option (List Tok)

/-- The `CacheManager::save_cache`: (re)write the serialized index file. -/
def saveCache (c : CacheData) (_store : CacheStore) : CacheStore :=
  some (encCacheData c)

/-- The `CacheManager::load_cache`: `none` when the file is missing or fails
to deserialize (a corrupt cache is a cache miss, never an error). -/
def loadCache (store : CacheStore) : Option CacheData :=
  match store with
  | none => none
  | some ts =>
    match decCacheData ts with
    | some (c, _) => some c
    | none => none

/-- C1.  Cache round-trip: saving any `CacheData` -- its path-to-FileIndex
index, its class map, and its build time -- and loading it back yields a
value field-wise equal to the one saved (the maps are recovered entry for
entry, so equality holds irrespective of key order). -/
theorem cache_roundtrip (c : CacheData) (store : CacheStore) :
    loadCache (saveCache c store) = some c := by
  simp only [saveCache, loadCache]
  have h := decCacheData_enc c []
  rw [List.append_nil] at h
  rw [h]

/-- The two-class cache used by the C5 witness. -/
def c5symA : Symbol := Symbol.new "ClassA" SymbolKind.Class "f.py" 1 "class ClassA"

/-- The `ClassB` declares `ClassA` as its parent. -/
def c5symB : Symbol :=
  { Symbol.new "ClassB" SymbolKind.Class "f.py" 3 "class ClassB(ClassA)" with
    parent_classes := ["ClassA"] }

/-- One indexed file declaring both classes, with a consistent class map. -/
def c5cache : CacheData :=
  ⟨[("f.py", ⟨1, [c5symA, c5symB]⟩)],
   [("ClassA", "f.py"), ("ClassB", "f.py")], "t"⟩

/-! ## Rule scanner (C7, C8)

`src-tauri/src/rules/scanner.rs` and `core/src/scanner/regex_scanner.rs`.
The external `regex` crate and tree-sitter are abstracted: compilation
success and the match enumeration of compiled artifacts are passed in as
oracles, while the built-in `RegexScanner` patterns are modelled by an
executable regular-expression interpreter. -/

/-- The `Severity` from `core/src/rules/model.rs`. -/
inductive Severity where
  | Critical
  | High
  | Medium
  | Low
  | Info
deriving DecidableEq

/-- The `format!("{:?}", severity)`: the derived Debug rendering. -/
def sevDebug : Severity → String
  | .Critical => "Critical"
  | .High => "High"
  | .Medium => "Medium"
  | .Low => "Low"
  | .Info => "Info"

/-- The `Rule` from `core/src/rules/model.rs`. -/
structure Rule where
  id : String
  name : String
  description : String
  severity : Severity
  language : String
  pattern : Option String
  query : Option String
  category : Option String
  cwe : Option String
deriving DecidableEq

/-- The tree-sitter grammars registered in `get_language_for_rule`. -/
inductive TSLang where
  | python
  | javascript
  | typescript
  | rust
  | go
  | java
  | c
  | cpp
  | json
  | html
deriving DecidableEq

/-- The `get_language_for_rule`. -/
def getLanguageForRule (language : String) : Option TSLang :=
  match strToLower language with
  | "python" => some .python
  | "javascript" => some .javascript
  | "typescript" => some .typescript
  | "rust" => some .rust
  | "go" => some .go
  | "java" => some .java
  | "c" => some .c
  | "cpp" => some .cpp
  | "json" => some .json
  | "html" => some .html
  | _ => none

/-- The `RuleMatcher`: a compiled matcher, abstracted by its source text. -/
inductive RuleMatcher where
  | regex (pattern : String) : RuleMatcher
  | treeSitter (query : String) : RuleMatcher
deriving DecidableEq

/-- The `CompiledRule`. -/
structure CompiledRule where
  rule : Rule
  matcher : RuleMatcher
  language : Option TSLang
deriving DecidableEq

/-- The `RuleScanner::new`: the compilation loop, branch for branch.
`queryOk lang q` stands for `Query::new(lang, q).is_ok()` and `regexOk p`
for `Regex::new(p).is_ok()` (both external crates). -/
def ruleScannerNew (queryOk : TSLang → String → Bool) (regexOk : String → Bool) :
    List Rule → List CompiledRule
  | [] => []
  | r :: rest =>
    match r.query with
    | some q =>
      match getLanguageForRule r.language with
      | some lang =>
        if queryOk lang q then
          ⟨r, .treeSitter q, some lang⟩ :: ruleScannerNew queryOk regexOk rest
        else
          ruleScannerNew queryOk regexOk rest
      | none => ruleScannerNew queryOk regexOk rest
    | none =>
      match r.pattern with
      | some p =>
        if regexOk p then
          ⟨r, .regex p, none⟩ :: ruleScannerNew queryOk regexOk rest
        else
          ruleScannerNew queryOk regexOk rest
      | none => ruleScannerNew queryOk regexOk rest

/-- The per-rule compilation outcome stated by the specification: a
structural matcher when a structural query is declared and the language
has a grammar and the query compiles; a textual matcher when no query is
declared, a pattern is, and it compiles; otherwise the rule is dropped. -/
def compileRule (queryOk : TSLang → String → Bool) (regexOk : String → Bool)
    (r : Rule) : Option CompiledRule :=
  match r.query with
  | some q =>
    match getLanguageForRule r.language with
    | some lang =>
      if queryOk lang q then some ⟨r, .treeSitter q, some lang⟩ else none
    | none => none
  | none =>
    match r.pattern with
    | some p => if regexOk p then some ⟨r, .regex p, none⟩ else none
    | none => none

/-- C7.  Rule compilation strategy: the compilation loop equals the
per-rule decision `compileRule`, mapped over the rules -- so each input
rule yields at most one matcher, and a dropped rule leaves the remaining
rules compiled -- and `compileRule` picks exactly one matcher with the
structural-over-textual priority: a structural matcher when the rule
declares a query, its language has a grammar and the query compiles; a
regex matcher when the rule declares no query but a compilable pattern;
and drops the rule on an unsupported language, a failed query compilation
or a failed pattern compilation. -/
theorem rule_compilation (queryOk : TSLang → String → Bool)
    (regexOk : String → Bool) :
    (∀ rules, ruleScannerNew queryOk regexOk rules =
      rules.filterMap (compileRule queryOk regexOk)) ∧
    (∀ r q lang, r.query = some q → getLanguageForRule r.language = some lang →
      queryOk lang q = true →
      compileRule queryOk regexOk r = some ⟨r, .treeSitter q, some lang⟩) ∧
    (∀ r q, r.query = some q → getLanguageForRule r.language = none →
      compileRule queryOk regexOk r = none) ∧
    (∀ r q lang, r.query = some q → getLanguageForRule r.language = some lang →
      queryOk lang q = false → compileRule queryOk regexOk r = none) ∧
    (∀ r p, r.query = none → r.pattern = some p → regexOk p = true →
      compileRule queryOk regexOk r = some ⟨r, .regex p, none⟩) ∧
    (∀ r p, r.query = none → r.pattern = some p → regexOk p = false →
      compileRule queryOk regexOk r = none) := by
  refine ⟨?_, ?_, ?_, ?_, ?_, ?_⟩
  · intro rules
    induction rules with
    | nil => rfl
    | cons r rest ih =>
      simp only [ruleScannerNew, List.filterMap_cons, compileRule]
      rcases hq : r.query with _ | q
      · rcases hp : r.pattern with _ | p
        · simpa using ih
        · by_cases hro : regexOk p = true
          · simp [hro, ih]
          · simp [hro, ih]
      · rcases hl : getLanguageForRule r.language with _ | lang
        · simpa using ih
        · by_cases hqo : queryOk lang q = true
          · simp [hqo, ih]
          · simp [hqo, ih]
  · intro r q lang hq hl hok
    simp [compileRule, hq, hl, hok]
  · intro r q hq hl
    simp [compileRule, hq, hl]
  · intro r q lang hq hl hok
    simp [compileRule, hq, hl, hok]
  · intro r p hq hp hok
    simp [compileRule, hq, hp, hok]
  · intro r p hq hp hok
    simp [compileRule, hq, hp, hok]

/-- A structural rule and a textual rule used by the C7 witness. -/
def c7ruleQ : Rule :=
  ⟨"r1", "q-rule", "structural", Severity.High, "python", none,
    some "(call) @c", none, none⟩

/-- A textual rule for the C7 witness. -/
def c7ruleP : Rule :=
  ⟨"r2", "p-rule", "textual", Severity.Low, "all", some "abc", none,
    none, none⟩

/-- A rule whose structural query targets an unregistered language and
which is therefore dropped. -/
def c7ruleBad : Rule :=
  ⟨"r3", "bad", "unsupported", Severity.Info, "cobol", some "p",
    some "(q)", none, none⟩

/-- Witness for C7: on a concrete rule list the loop compiles the
structural rule to a tree-sitter matcher, the textual rule to a regex
matcher, and drops the unsupported-language rule while keeping the rest. -/
theorem rule_compilation_witness :
    compileRule (fun _ _ => true) (fun _ => true) c7ruleQ =
      some ⟨c7ruleQ, .treeSitter "(call) @c", some .python⟩ ∧
    compileRule (fun _ _ => true) (fun _ => true) c7ruleP =
      some ⟨c7ruleP, .regex "abc", none⟩ ∧
    ruleScannerNew (fun _ _ => true) (fun _ => true) [c7ruleQ, c7ruleBad, c7ruleP] =
      [⟨c7ruleQ, .treeSitter "(call) @c", some .python⟩,
       ⟨c7ruleP, .regex "abc", none⟩] := by
  obtain ⟨h1, h2, -, -, h5, -⟩ := rule_compilation (fun _ _ => true) (fun _ => true)
  refine ⟨h2 c7ruleQ "(call) @c" .python rfl (by decide) rfl,
    h5 c7ruleP "abc" rfl rfl rfl, ?_⟩
  rw [h1]
  rfl

/-- The `Finding` from the scanners module. -/
structure Finding where
  finding_id : String
  file_path : String
  line_start : Nat
  line_end : Nat
  detector : String
  vuln_type : String
  severity : String
  description : String
  analysis_trail : Option String
  llm_output : Option String
deriving DecidableEq

/-- The `rule_matches_extension`; `eq_ignore_ascii_case` is rendered as
lower-cased equality. -/
def ruleMatchesExtension (language extension : String) : Bool :=
  match strToLower language with
  | "python" => extension == "py"
  | "javascript" | "typescript" =>
    ["js", "jsx", "ts", "tsx", "mjs", "cjs"].contains extension
  | "rust" => extension == "rs"
  | "go" => extension == "go"
  | "java" => extension == "java"
  | "c" => extension == "c" || extension == "h"
  | "cpp" => ["cpp", "hpp", "cc", "cxx"].contains extension
  | "all" | "*" => true
  | _ => strToLower language == strToLower extension

/-- Newlines in the content before a byte offset (`matches('\n').count()`,
with the ASCII offsets of the patterns at hand, characters and bytes
coincide). -/
def countNl (content : String) (pos : Nat) : Nat :=
  ((content.toList.take pos).filter (fun ch => ch == '\n')).length

/-- The `create_finding`: external UUID generation is modelled by an opaque
empty id (no claim concerns the id). -/
def createFinding (rule : Rule) (path : String) (lineStart lineEnd : Nat)
    (detector : String) : Finding :=
  ⟨"", path, lineStart, lineEnd, detector, rule.cwe.getD "Unknown",
    sevDebug rule.severity, rule.description, none, none⟩

/-- The `RuleScanner::scan_file`.  `captures pat content` enumerates the
non-overlapping matches (start/end byte offsets) the `regex` crate finds
for the compiled pattern; `tsMatches lang q content` yields the row spans
of the first capture of each structural match, or `none` when the parse
or language setup fails. -/
def scanFileRules (captures : String → String → List (Nat × Nat))
    (tsMatches : TSLang → String → String → Option (List (Nat × Nat)))
    (compiled : List CompiledRule) (path content : String) : List Finding :=
  let extension := strToLower ((pathExtension path).getD "")
  compiled.foldl
    (fun findings cr =>
      if ruleMatchesExtension cr.rule.language extension then
        match cr.matcher with
        | .regex pat =>
          findings ++ (captures pat content).map (fun m =>
            createFinding cr.rule path (countNl content m.1 + 1)
              (countNl content m.2 + 1) ("RegexRule: " ++ cr.rule.id))
        | .treeSitter q =>
          match cr.language with
          | some lang =>
            match tsMatches lang q content with
            | some ms =>
              findings ++ ms.map (fun m =>
                createFinding cr.rule path (m.1 + 1) (m.2 + 1)
                  ("ASTRule: " ++ cr.rule.id))
            | none => findings
          | none => findings
      else findings)
    []

/-- Regular expressions over characters, for the built-in patterns. -/
inductive Pat where
  | eps : Pat
  | fail : Pat
  | atom (p : Char → Bool) : Pat
  | seq (a b : Pat) : Pat
  | alt (a b : Pat) : Pat
  | star (a : Pat) : Pat

/-- Whether a pattern accepts the empty string. -/
def nullable : Pat → Bool
  | .eps => true
  | .fail => false
  | .atom _ => false
  | .seq a b => nullable a && nullable b
  | .alt a b => nullable a || nullable b
  | .star _ => true

/-- Brzozowski derivative. -/
def pderiv (p : Pat) (ch : Char) : Pat :=
  match p with
  | .eps => .fail
  | .fail => .fail
  | .atom f => if f ch then .eps else .fail
  | .seq a b =>
    if nullable a then .alt (.seq (pderiv a ch) b) (pderiv b ch)
    else .seq (pderiv a ch) b
  | .alt a b => .alt (pderiv a ch) (pderiv b ch)
  | .star a => .seq (pderiv a ch) (.star a)

/-- Does the pattern accept some prefix of the character list? -/
def matchSomePrefix : Pat → List Char → Bool
  | p, [] => nullable p
  | p, ch :: t => nullable p || matchSomePrefix (pderiv p ch) t

/-- Unanchored search: does some substring match (`Regex::is_match`)? -/
def regexSearch (p : Pat) : List Char → Bool
  | [] => matchSomePrefix p []
  | c :: t => matchSomePrefix p (c :: t) || regexSearch p t

/-- The `Regex::is_match` on a string. -/
def isMatch (p : Pat) (s : String) : Bool := regexSearch p s.toList

/-- A case-insensitive literal sequence (the `(?i)` flag). -/
def litCI (s : List Char) : Pat :=
  s.foldr (fun c acc => .seq (.atom (fun ch => ch.toLower == c)) acc) .eps

/-- The `\s` character class. -/
def isWs (ch : Char) : Bool :=
  ch == ' ' || ch == '\t' || ch == '\n' || ch == '\r' ||
    ch == Char.ofNat 11 || ch == Char.ofNat 12

/-- A single or double quote. -/
def isQuote (ch : Char) : Bool := ch == Char.ofNat 39 || ch == '"'

/-- The `['"][^'"]+['"]` as a pattern tail. -/
def quotedValue : Pat :=
  .seq (.atom isQuote)
    (.seq (.seq (.atom (fun ch => ! isQuote ch)) (.star (.atom (fun ch => ! isQuote ch))))
      (.atom isQuote))

/-- The built-in pattern for hardcoded passwords. -/
def passwordPat : Pat :=
  .seq (litCI "password".toList)
    (.seq (.star (.atom isWs))
      (.seq (.atom (fun ch => ch == '='))
        (.seq (.star (.atom isWs)) quotedValue)))

/-- The built-in pattern for hardcoded API keys. -/
def apiKeyPat : Pat :=
  .seq (litCI "api_key".toList)
    (.seq (.star (.atom isWs))
      (.seq (.atom (fun ch => ch == '='))
        (.seq (.star (.atom isWs)) quotedValue)))

/-- The built-in pattern for TODO comments. -/
def todoPat : Pat := litCI "todo:".toList

/-- The `RegexScanner::new`'s pattern table. -/
def regexScannerPatterns : List (Pat × String × String) :=
  [(passwordPat, "Hardcoded Password", "high"),
   (apiKeyPat, "Hardcoded API Key", "high"),
   (todoPat, "TODO Comment", "low")]

/-- The `str::lines`: split on newlines, dropping a trailing empty line and a
trailing carriage return per line. -/
def rustLines (content : String) : List String :=
  let ps := splitChar '\n' content.toList
  let ps := match ps.getLast? with
    | some [] => ps.dropLast
    | _ => ps
  ps.map (fun l =>
    String.mk (if l.getLast? = some (Char.ofNat 13) then l.dropLast else l))

/-- The `RegexScanner::scan_file`: one finding per line and built-in pattern
that matches it. -/
def regexScannerScanFile (path content : String) : List Finding :=
  (rustLines content).enum.foldl
    (fun findings il =>
      regexScannerPatterns.foldl
        (fun findings pvs =>
          if isMatch pvs.1 il.2 then
            findings ++ [⟨"", path, il.1 + 1, il.1 + 1, "RegexScanner",
              pvs.2.1, pvs.2.2,
              "Found potential " ++ pvs.2.1 ++ " at line " ++ toString (il.1 + 1),
              none, none⟩]
          else findings)
        findings)
    []

/-- C8.  Textual matcher findings.  First, a compiled textual rule whose
language matches the file's extension produces exactly one `Finding` per
non-overlapping regex match of the full content, in order, with start and
end lines obtained by counting the newlines before the match's start and
end offsets, the rule's severity and a `RegexRule:` detector.  Second, the
built-in hardcoded-password pattern run against a file whose single line
is `password = "abc123"` yields exactly one `Finding`, of severity
`"high"`, whose line is that line's 1-based number. -/
theorem textual_matcher_findings :
    (∀ (captures : String → String → List (Nat × Nat))
      (tsMatches : TSLang → String → String → Option (List (Nat × Nat)))
      (r : Rule) (pat path content : String),
      ruleMatchesExtension r.language (strToLower ((pathExtension path).getD ""))
        = true →
      scanFileRules captures tsMatches [⟨r, .regex pat, none⟩] path content =
        (captures pat content).map (fun m =>
          { finding_id := "", file_path := path,
            line_start := countNl content m.1 + 1,
            line_end := countNl content m.2 + 1,
            detector := "RegexRule: " ++ r.id,
            vuln_type := r.cwe.getD "Unknown",
            severity := sevDebug r.severity,
            description := r.description,
            analysis_trail := none, llm_output := none })) ∧
    regexScannerScanFile "config.py" "password = \"abc123\"" =
      [⟨"", "config.py", 1, 1, "RegexScanner", "Hardcoded Password", "high",
        "Found potential Hardcoded Password at line 1", none, none⟩] := by
  constructor
  · intro captures tsMatches r pat path content happ
    simp only [scanFileRules, List.foldl_cons, List.foldl_nil, happ, if_true]
    simp [createFinding]
  · decide

/-- Witness for C8: the generic per-match statement applied to a concrete
oracle returning two matches over a two-line content. -/
theorem textual_matcher_findings_witness :
    scanFileRules (fun _ _ => [(0, 4), (10, 14)]) (fun _ _ _ => none)
      [⟨c7ruleP, .regex "abc", none⟩] "a.py" "key1\nkey2\nkey3" =
      [⟨"", "a.py", 1, 1, "RegexRule: r2", "Unknown", "Low", "textual", none, none⟩,
       ⟨"", "a.py", 3, 3, "RegexRule: r2", "Unknown", "Low", "textual", none, none⟩] := by
  rw [textual_matcher_findings.1 (fun _ _ => [(0, 4), (10, 14)]) (fun _ _ _ => none)
    c7ruleP "abc" "a.py" "key1\nkey2\nkey3" (by decide)]
  decide

/-- Witness for C5 at the concrete two-class cache. -/
theorem class_hierarchy_symmetric_witness :
    (∃ hi, getClassHierarchy c5cache "ClassB" = .ok hi ∧
      ∃ p ∈ hi.parents, p.name = "ClassA") ∧
    (∃ hi, getClassHierarchy c5cache "ClassA" = .ok hi ∧
      ∃ ch ∈ hi.children, ch.name = "ClassB") :=
  class_hierarchy_symmetric c5cache
    (show mapLookup c5cache.class_map "ClassB" = some "f.py" from rfl)
    (show findClassSymbolInFile c5cache "ClassB" "f.py" = some c5symB from rfl)
    (show mapLookup c5cache.class_map "ClassA" = some "f.py" from rfl)
    (show findClassSymbolInFile c5cache "ClassA" "f.py" = some c5symA from rfl)
    (by simp [c5symB, Symbol.new])
    (by decide)

/-! ## Call-site name canonicalization (C9)

`extract_last_name` in `src-tauri/src/ast/parser.rs`: trim the callee
text, rewrite the `?.`, `::` and `->` qualifiers to `.` (three successive
single-pass, leftmost, non-overlapping `str::replace` calls) and keep the
last `.`-separated segment. -/

/-- The `str::trim` on a character list. -/
def trimChars (cs : List Char) : List Char :=
  ((cs.dropWhile (fun c => c.isWhitespace)).reverse.dropWhile
    (fun c => c.isWhitespace)).reverse

/-- The `str::replace(pat, ".")` for a two-character pattern `[a, b]`: one
left-to-right pass replacing non-overlapping occurrences. -/
def repl2 (a b : Char) : List Char → List Char
  | [] => []
  | [c] => [c]
  | c :: d :: t =>
    if c = a ∧ d = b then '.' :: repl2 a b t else c :: repl2 a b (d :: t)

/-- The `extract_last_name`. -/
def extractLastName (text : String) : String :=
  let t := trimChars text.toList
  if t.isEmpty then ""
  else
    let r := repl2 '-' '>' (repl2 ':' ':' (repl2 '?' '.' t))
    String.mk ((splitChar '.' r).getLast?.getD r)

/-- The length of the separator (`?.`, `::`, `->`, or `.`) occurring at
the head of a suffix, if any. -/
def sepLenAt : List Char → Option Nat
  | [] => none
  | [c] => if c = '.' then some 1 else none
  | c :: d :: _ =>
    if c = '?' ∧ d = '.' then some 2
    else if c = ':' ∧ d = ':' then some 2
    else if c = '-' ∧ d = '>' then some 2
    else if c = '.' then some 1 else none

/-- Scan every position of the text from the left, remembering the suffix
that follows the separator occurrence seen last. -/
def cnAux : List Char → List Char → List Char
  | cand, [] => cand
  | cand, c :: t =>
    match sepLenAt (c :: t) with
    | some L => cnAux ((c :: t).drop L) t
    | none => cnAux cand t

/-- The name the claim describes: the substring of the trimmed callee
text following the final `.`, `::`, `->` or `?.` separator occurrence
(the whole trimmed text when no separator occurs). -/
def claimedName (text : String) : String :=
  let t := trimChars text.toList
  String.mk (cnAux t t)

/-- Does the list contain a dot? -/
def hasDot : List Char → Bool
  | [] => false
  | c :: t => c == '.' || hasDot t

/-- Does a separator occurrence start at some position of the list? -/
def hasSepScan : List Char → Bool
  | [] => false
  | c :: t => (sepLenAt (c :: t)).isSome || hasSepScan t

/-- The fused form of the three successive replacements: the patterns
`?.`, `::` and `->` share no characters, so one left-to-right pass
rewriting whichever of them occurs first is equivalent. -/
def norm : List Char → List Char
  | [] => []
  | [c] => [c]
  | c :: d :: t =>
    if c = '?' ∧ d = '.' then '.' :: norm t
    else if c = ':' ∧ d = ':' then '.' :: norm t
    else if c = '-' ∧ d = '>' then '.' :: norm t
    else c :: norm (d :: t)

/-- The maximal dot-free suffix (`split('.').last()`), recursively. -/
def lastSegF : List Char → List Char
  | [] => []
  | c :: t =>
    if c = '.' then lastSegF t
    else if hasDot t then lastSegF t else c :: t

theorem splitChar_ne_nil (sep : Char) (cs : List Char) : splitChar sep cs ≠ [] := by
  cases cs with
  | nil => simp [splitChar]
  | cons c t =>
    rcases h : splitChar sep t with _ | ⟨h1, r⟩
    · simp [splitChar, h]
    · simp only [splitChar, h]
      split <;> simp

theorem splitChar_of_no_dot :
    ∀ cs : List Char, hasDot cs = false → splitChar '.' cs = [cs] := by
  intro cs
  induction cs with
  | nil => intro h; rfl
  | cons c t ih =>
    intro h
    simp only [hasDot, Bool.or_eq_false_iff, beq_eq_false_iff_ne, ne_eq] at h
    simp only [splitChar, ih h.2]
    rw [if_neg h.1]

theorem splitChar_of_dot :
    ∀ cs : List Char, hasDot cs = true → ∃ x y r, splitChar '.' cs = x :: y :: r := by
  intro cs
  induction cs with
  | nil => intro h; exact absurd h (by simp [hasDot])
  | cons c t ih =>
    intro h
    by_cases hc : c = '.'
    · subst hc
      rcases hsp : splitChar '.' t with _ | ⟨h1, r⟩
      · exact absurd hsp (splitChar_ne_nil _ _)
      · refine ⟨[], h1, r, ?_⟩
        simp only [splitChar, hsp]
        simp
    · have ht : hasDot t = true := by
        simp only [hasDot, Bool.or_eq_true, beq_iff_eq] at h
        rcases h with h | h
        · exact absurd h hc
        · exact h
      obtain ⟨x, y, r, hxy⟩ := ih ht
      refine ⟨c :: x, y, r, ?_⟩
      simp only [splitChar, hxy]
      rw [if_neg hc]

theorem getLast?_cons_cons (a b : α) (l : List α) :
    (a :: b :: l).getLast? = (b :: l).getLast? := by
  simp [List.getLast?]

/-- The source's `split('.').last().unwrap_or(..)` computes the maximal
dot-free suffix. -/
theorem splitLast_eq_lastSegF :
    ∀ cs : List Char, (splitChar '.' cs).getLast?.getD cs = lastSegF cs := by
  intro cs
  induction cs with
  | nil => rfl
  | cons c t ih =>
    by_cases hc : c = '.'
    · subst hc
      rcases hsp : splitChar '.' t with _ | ⟨h1, r⟩
      · exact absurd hsp (splitChar_ne_nil _ _)
      · have step : splitChar '.' ('.' :: t) = [] :: h1 :: r := by
          simp only [splitChar, hsp]
          simp
        rw [step, getLast?_cons_cons]
        have ihr : (h1 :: r).getLast?.getD t = lastSegF t := by
          rw [← hsp]
          exact ih
        obtain ⟨v, hv⟩ : ∃ v, (h1 :: r).getLast? = some v :=
          ⟨(h1 :: r).getLast (by simp), List.getLast?_eq_getLast _ (by simp)⟩
        rw [hv] at ihr ⊢
        simp only [Option.getD_some] at ihr
        have hseg : lastSegF ('.' :: t) = lastSegF t := by simp [lastSegF]
        rw [Option.getD_some, hseg]
        exact ihr
    · rcases hd : hasDot t with _ | _
      · have hsp := splitChar_of_no_dot t hd
        have step : splitChar '.' (c :: t) = [(c :: t)] := by
          simp only [splitChar, hsp]
          rw [if_neg hc]
        rw [step]
        simp [lastSegF, hc, hd]
      · obtain ⟨x, y, r, hxy⟩ := splitChar_of_dot t hd
        have step : splitChar '.' (c :: t) = (c :: x) :: y :: r := by
          simp only [splitChar, hxy]
          rw [if_neg hc]
        rw [step, getLast?_cons_cons]
        have h2 : (splitChar '.' t).getLast? = (y :: r).getLast? := by
          rw [hxy, getLast?_cons_cons]
        obtain ⟨v, hv⟩ : ∃ v, (y :: r).getLast? = some v :=
          ⟨(y :: r).getLast (by simp), List.getLast?_eq_getLast _ (by simp)⟩
        rw [hv]
        rw [h2, hv] at ih
        simp only [Option.getD_some] at ih ⊢
        simp [lastSegF, hc, hd, ih]

theorem repl2_hit (a b : Char) (t : List Char) :
    repl2 a b (a :: b :: t) = '.' :: repl2 a b t := by
  simp [repl2]

theorem repl2_skip {a b c : Char} {t : List Char}
    (h : ¬(c = a ∧ t.head? = some b)) :
    repl2 a b (c :: t) = c :: repl2 a b t := by
  cases t with
  | nil => rfl
  | cons d t2 =>
    have h2 : ¬(c = a ∧ d = b) := by
      intro hcd
      exact h ⟨hcd.1, by rw [List.head?_cons, hcd.2]⟩
    simp [repl2, h2]

theorem repl2_head (a b : Char) (cs : List Char) :
    (repl2 a b cs).head? = cs.head? ∨ (repl2 a b cs).head? = some '.' := by
  match cs with
  | [] => exact Or.inl rfl
  | [c] => exact Or.inl rfl
  | c :: d :: t =>
    by_cases h : c = a ∧ d = b
    · rw [show repl2 a b (c :: d :: t) = '.' :: repl2 a b t by simp [repl2, h]]
      exact Or.inr rfl
    · rw [show repl2 a b (c :: d :: t) = c :: repl2 a b (d :: t) by simp [repl2, h]]
      exact Or.inl rfl

/-- The three single-pass replacements fuse into one: their patterns are
character-disjoint, so no pass can create or destroy a later pattern's
occurrence except by the shared replacement character `.`, which starts
no pattern. -/
theorem repl3_eq_norm :
    ∀ (n : Nat) (cs : List Char), cs.length ≤ n →
      repl2 '-' '>' (repl2 ':' ':' (repl2 '?' '.' cs)) = norm cs := by
  intro n
  induction n with
  | zero =>
    intro cs h
    rw [List.length_eq_zero.mp (Nat.le_zero.mp h)]
    rfl
  | succ n ih =>
    intro cs hlen
    match cs with
    | [] => rfl
    | [c] => rfl
    | c :: d :: t =>
      have hlt : t.length ≤ n := by
        simp only [List.length_cons] at hlen
        omega
      have hlt2 : (d :: t).length ≤ n := by
        simp only [List.length_cons] at hlen ⊢
        omega
      by_cases h1 : c = '?' ∧ d = '.'
      · obtain ⟨rfl, rfl⟩ := h1
        rw [repl2_hit]
        rw [repl2_skip (show ¬(('.' : Char) = ':' ∧ _) from fun hh => by
          exact absurd hh.1 (by decide))]
        rw [repl2_skip (show ¬(('.' : Char) = '-' ∧ _) from fun hh => by
          exact absurd hh.1 (by decide))]
        rw [ih t hlt]
        simp [norm]
      · by_cases h2 : c = ':' ∧ d = ':'
        · obtain ⟨rfl, rfl⟩ := h2
          rw [repl2_skip (show ¬((':' : Char) = '?' ∧ _) from fun hh => by
            exact absurd hh.1 (by decide))]
          rw [repl2_skip (show ¬((':' : Char) = '?' ∧ _) from fun hh => by
            exact absurd hh.1 (by decide))]
          rw [repl2_hit]
          rw [repl2_skip (show ¬(('.' : Char) = '-' ∧ _) from fun hh => by
            exact absurd hh.1 (by decide))]
          rw [ih t hlt]
          simp [norm]
        · by_cases h3 : c = '-' ∧ d = '>'
          · obtain ⟨rfl, rfl⟩ := h3
            rw [repl2_skip (show ¬(('-' : Char) = '?' ∧ _) from fun hh => by
              exact absurd hh.1 (by decide))]
            rw [repl2_skip (show ¬(('>' : Char) = '?' ∧ _) from fun hh => by
              exact absurd hh.1 (by decide))]
            rw [repl2_skip (show ¬(('-' : Char) = ':' ∧ _) from fun hh => by
              exact absurd hh.1 (by decide))]
            rw [repl2_skip (show ¬(('>' : Char) = ':' ∧ _) from fun hh => by
              exact absurd hh.1 (by decide))]
            rw [repl2_hit]
            rw [ih t hlt]
            simp [norm]
          · -- no pattern starts here: every pass keeps the head character
            have s1 : repl2 '?' '.' (c :: d :: t) = c :: repl2 '?' '.' (d :: t) :=
              repl2_skip (fun hh => h1 ⟨hh.1, by simpa using hh.2⟩)
            have s2 : repl2 ':' ':' (c :: repl2 '?' '.' (d :: t)) =
                c :: repl2 ':' ':' (repl2 '?' '.' (d :: t)) := by
              refine repl2_skip ?_
              rintro ⟨rfl, hh⟩
              rcases repl2_head '?' '.' (d :: t) with he | he
              · rw [he] at hh
                exact h2 ⟨rfl, by simpa using hh⟩
              · rw [he] at hh
                exact absurd (Option.some.inj hh) (by decide)
            have s3 : repl2 '-' '>' (c :: repl2 ':' ':' (repl2 '?' '.' (d :: t))) =
                c :: repl2 '-' '>' (repl2 ':' ':' (repl2 '?' '.' (d :: t))) := by
              refine repl2_skip ?_
              rintro ⟨rfl, hh⟩
              rcases repl2_head ':' ':' (repl2 '?' '.' (d :: t)) with he | he
              · rw [he] at hh
                rcases repl2_head '?' '.' (d :: t) with he2 | he2
                · rw [he2] at hh
                  exact h3 ⟨rfl, by simpa using hh⟩
                · rw [he2] at hh
                  exact absurd (Option.some.inj hh) (by decide)
              · rw [he] at hh
                exact absurd (Option.some.inj hh) (by decide)
            rw [s1, s2, s3, ih (d :: t) hlt2]
            have hn : norm (c :: d :: t) = c :: norm (d :: t) := by
              simp only [norm, if_neg h1, if_neg h2, if_neg h3]
            rw [hn]

theorem sepLenAt_none2 {c d : Char} {t : List Char}
    (h : sepLenAt (c :: d :: t) = none) :
    ¬(c = '?' ∧ d = '.') ∧ ¬(c = ':' ∧ d = ':') ∧ ¬(c = '-' ∧ d = '>') ∧
      c ≠ '.' := by
  refine ⟨?_, ?_, ?_, ?_⟩ <;> intro p
  · simp [sepLenAt, p.1, p.2] at h
  · simp [sepLenAt, p.1, p.2] at h
  · simp [sepLenAt, p.1, p.2] at h
  · simp [sepLenAt, p] at h

theorem sepLenAt_dotHead (t : List Char) : sepLenAt ('.' :: t) = some 1 := by
  cases t <;> simp [sepLenAt]

theorem hasSepScan_cons (c : Char) (t : List Char) :
    hasSepScan (c :: t) = ((sepLenAt (c :: t)).isSome || hasSepScan t) := rfl

/-- Once some separator occurs in the rest of the scan, the candidate in
hand is irrelevant. -/
theorem cnAux_indep :
    ∀ (t : List Char), hasSepScan t = true →
      ∀ cand cand2, cnAux cand t = cnAux cand2 t := by
  intro t
  induction t with
  | nil => intro h; simp [hasSepScan] at h
  | cons c t ih =>
    intro h cand cand2
    rcases hs : sepLenAt (c :: t) with _ | L
    · have ht : hasSepScan t = true := by
        rw [hasSepScan_cons, hs] at h
        simpa using h
      simp only [cnAux, hs]
      exact ih ht cand cand2
    · simp only [cnAux, hs]

/-- With no separator in the rest of the scan, the candidate survives. -/
theorem cnAux_nosep :
    ∀ (t : List Char), hasSepScan t = false → ∀ cand, cnAux cand t = cand := by
  intro t
  induction t with
  | nil => intro _ cand; rfl
  | cons c t ih =>
    intro h cand
    rcases hs : sepLenAt (c :: t) with _ | L
    · have ht : hasSepScan t = false := by
        rw [hasSepScan_cons, hs] at h
        simpa using h
      simp only [cnAux, hs]
      exact ih ht cand
    · rw [hasSepScan_cons, hs] at h
      simp at h

/-- A separator-free text is a fixed point of the fused replacement. -/
theorem norm_of_nosep :
    ∀ (n : Nat) (t : List Char), t.length ≤ n → hasSepScan t = false →
      norm t = t := by
  intro n
  induction n with
  | zero =>
    intro t h _
    rw [List.length_eq_zero.mp (Nat.le_zero.mp h)]
    rfl
  | succ n ih =>
    intro t hlen h
    match t with
    | [] => rfl
    | [c] => rfl
    | c :: d :: t =>
      rcases hs : sepLenAt (c :: d :: t) with _ | L
      · have ht : hasSepScan (d :: t) = false := by
          rw [hasSepScan_cons, hs] at h
          simpa using h
        obtain ⟨p1, p2, p3, p4⟩ := sepLenAt_none2 hs
        have hn : norm (c :: d :: t) = c :: norm (d :: t) := by
          simp only [norm, if_neg p1, if_neg p2, if_neg p3]
        rw [hn, ih (d :: t) (by simp only [List.length_cons] at hlen ⊢; omega) ht]
      · rw [hasSepScan_cons, hs] at h
        simp at h

/-- The fused replacement leaves a dot exactly where a separator occurs. -/
theorem hasDot_norm :
    ∀ (n : Nat) (t : List Char), t.length ≤ n →
      hasDot (norm t) = hasSepScan t := by
  intro n
  induction n with
  | zero =>
    intro t h
    rw [List.length_eq_zero.mp (Nat.le_zero.mp h)]
    rfl
  | succ n ih =>
    intro t hlen
    match t with
    | [] => rfl
    | [c] =>
      by_cases hc : c = '.'
      · subst hc; rfl
      · simp [norm, hasDot, hasSepScan, sepLenAt, hc]
    | c :: d :: t =>
      have hlen2 : (d :: t).length ≤ n := by
        simp only [List.length_cons] at hlen ⊢
        omega
      by_cases p1 : c = '?' ∧ d = '.'
      · obtain ⟨rfl, rfl⟩ := p1
        simp [norm, hasDot, hasSepScan, sepLenAt]
      · by_cases p2 : c = ':' ∧ d = ':'
        · obtain ⟨rfl, rfl⟩ := p2
          simp [norm, hasDot, hasSepScan, sepLenAt]
        · by_cases p3 : c = '-' ∧ d = '>'
          · obtain ⟨rfl, rfl⟩ := p3
            simp [norm, hasDot, hasSepScan, sepLenAt]
          · have hn : norm (c :: d :: t) = c :: norm (d :: t) := by
              simp only [norm, if_neg p1, if_neg p2, if_neg p3]
            by_cases hc : c = '.'
            · subst hc
              rw [hn]
              simp [hasDot, hasSepScan, sepLenAt_dotHead]
            · have hsep : sepLenAt (c :: d :: t) = none := by
                simp only [sepLenAt, if_neg p1, if_neg p2, if_neg p3, if_neg hc]
              rw [hn, hasSepScan_cons, hsep]
              have hD : hasDot (c :: norm (d :: t)) = hasDot (norm (d :: t)) := by
                simp [hasDot, hc]
              rw [hD, ih (d :: t) hlen2]
              simp

theorem noTriple_tail {c : Char} {t : List Char}
    (h : listContainsSub [':', ':', ':'] (c :: t) = false) :
    listContainsSub [':', ':', ':'] t = false := by
  simp only [listContainsSub, Bool.or_eq_false_iff] at h
  exact h.2

/-- The code's last-dot-segment of the fused replacement coincides with
the scan for the final separator occurrence, for texts without `:::`. -/
theorem lastSegF_norm_eq_cnAux :
    ∀ (n : Nat) (cs : List Char), cs.length ≤ n →
      listContainsSub [':', ':', ':'] cs = false →
      lastSegF (norm cs) = cnAux cs cs := by
  intro n
  induction n with
  | zero =>
    intro cs h _
    rw [List.length_eq_zero.mp (Nat.le_zero.mp h)]
    rfl
  | succ n ih =>
    intro cs hlen htriple
    match cs with
    | [] => rfl
    | [c] =>
      by_cases hc : c = '.'
      · subst hc; rfl
      · simp [norm, lastSegF, cnAux, sepLenAt, hasDot, hc]
    | c :: d :: t =>
      have hlt : t.length ≤ n := by
        simp only [List.length_cons] at hlen
        omega
      have hlt2 : (d :: t).length ≤ n := by
        simp only [List.length_cons] at hlen ⊢
        omega
      have htt : listContainsSub [':', ':', ':'] t = false :=
        noTriple_tail (noTriple_tail htriple)
      have htt2 : listContainsSub [':', ':', ':'] (d :: t) = false :=
        noTriple_tail htriple
      by_cases p1 : c = '?' ∧ d = '.'
      · obtain ⟨rfl, rfl⟩ := p1
        have hn : norm ('?' :: '.' :: t) = '.' :: norm t := by simp [norm]
        rw [hn]
        have hL : lastSegF ('.' :: norm t) = lastSegF (norm t) := by
          simp [lastSegF]
        rw [hL]
        have hR : cnAux ('?' :: '.' :: t) ('?' :: '.' :: t) = cnAux t t := by
          have h1 : sepLenAt ('?' :: '.' :: t) = some 2 := by simp [sepLenAt]
          simp only [cnAux, h1, List.drop_succ_cons, List.drop_zero,
            sepLenAt_dotHead]
        rw [hR]
        exact ih t hlt htt
      · by_cases p2 : c = ':' ∧ d = ':'
        · obtain ⟨rfl, rfl⟩ := p2
          have hhead : t.head? ≠ some ':' := by
            intro hh
            cases t with
            | nil => exact Option.noConfusion hh
            | cons e t2 =>
              have he : e = ':' := by simpa using hh
              subst he
              simp [listContainsSub, List.isPrefixOf] at htriple
          have hn : norm (':' :: ':' :: t) = '.' :: norm t := by simp [norm]
          rw [hn]
          have hL : lastSegF ('.' :: norm t) = lastSegF (norm t) := by
            simp [lastSegF]
          rw [hL]
          have hs2 : sepLenAt (':' :: t) = none := by
            match t with
            | [] => rfl
            | e :: t2 =>
              have he : e ≠ ':' := by
                intro hh
                exact hhead (by rw [hh]; rfl)
              simp [sepLenAt, he]
          have hR : cnAux (':' :: ':' :: t) (':' :: ':' :: t) = cnAux t t := by
            have h1 : sepLenAt (':' :: ':' :: t) = some 2 := by simp [sepLenAt]
            simp only [cnAux, h1, List.drop_succ_cons, List.drop_zero, hs2]
          rw [hR]
          exact ih t hlt htt
        · by_cases p3 : c = '-' ∧ d = '>'
          · obtain ⟨rfl, rfl⟩ := p3
            have hn : norm ('-' :: '>' :: t) = '.' :: norm t := by simp [norm]
            rw [hn]
            have hL : lastSegF ('.' :: norm t) = lastSegF (norm t) := by
              simp [lastSegF]
            rw [hL]
            have hs2 : sepLenAt ('>' :: t) = none := by
              match t with
              | [] => rfl
              | e :: t2 => simp [sepLenAt]
            have hR : cnAux ('-' :: '>' :: t) ('-' :: '>' :: t) = cnAux t t := by
              have h1 : sepLenAt ('-' :: '>' :: t) = some 2 := by simp [sepLenAt]
              simp only [cnAux, h1, List.drop_succ_cons, List.drop_zero, hs2]
            rw [hR]
            exact ih t hlt htt
          · have hn : norm (c :: d :: t) = c :: norm (d :: t) := by
              simp only [norm, if_neg p1, if_neg p2, if_neg p3]
            by_cases hc : c = '.'
            · subst hc
              have hs1 : sepLenAt ('.' :: d :: t) = some 1 := sepLenAt_dotHead _
              have hR : cnAux ('.' :: d :: t) ('.' :: d :: t) =
                  cnAux (d :: t) (d :: t) := by
                simp only [cnAux, hs1, List.drop_succ_cons, List.drop_zero]
              rw [hn, hR]
              have hL : lastSegF ('.' :: norm (d :: t)) = lastSegF (norm (d :: t)) := by
                simp [lastSegF]
              rw [hL]
              exact ih (d :: t) hlt2 htt2
            · have hsep : sepLenAt (c :: d :: t) = none := by
                simp only [sepLenAt, if_neg p1, if_neg p2, if_neg p3, if_neg hc]
              have hR : cnAux (c :: d :: t) (c :: d :: t) =
                  cnAux (c :: d :: t) (d :: t) := by
                simp only [cnAux, hsep]
              rw [hn, hR]
              by_cases hsc : hasSepScan (d :: t)
              · rw [cnAux_indep (d :: t) hsc (c :: d :: t) (d :: t)]
                have hdot : hasDot (norm (d :: t)) = true := by
                  rw [hasDot_norm ((d :: t).length) (d :: t) le_rfl]
                  exact hsc
                have hL : lastSegF (c :: norm (d :: t)) = lastSegF (norm (d :: t)) := by
                  simp [lastSegF, hc, hdot]
                rw [hL]
                exact ih (d :: t) hlt2 htt2
              · have hscF : hasSepScan (d :: t) = false := by
                  simpa using hsc
                rw [cnAux_nosep (d :: t) hscF (c :: d :: t)]
                have hdot : hasDot (norm (d :: t)) = false := by
                  rw [hasDot_norm ((d :: t).length) (d :: t) le_rfl]
                  exact hscF
                have hL : lastSegF (c :: norm (d :: t)) = c :: norm (d :: t) := by
                  simp [lastSegF, hc, hdot]
                rw [hL, norm_of_nosep ((d :: t).length) (d :: t) le_rfl hscF]

/-- C9 (amended).  Provided the trimmed callee text contains no `:::`
run -- so the `::` occurrences are pairwise non-overlapping -- the name
the code extracts equals the substring following the final `.`, `::`,
`->` or `?.` separator occurrence of the trimmed text.  (The single-pass
replacement otherwise misses the trailing overlapping `::`; see the
counterexample.) -/
theorem extract_last_name_amended (text : String)
    (h : listContainsSub [':', ':', ':'] (trimChars text.toList) = false) :
    extractLastName text = claimedName text := by
  by_cases he : (trimChars text.toList).isEmpty
  · have hnil : trimChars text.toList = [] := by simpa using he
    have h1 : extractLastName text = "" := by
      simp only [extractLastName, if_pos he]
    have h2 : claimedName text = String.mk (cnAux [] []) := by
      simp only [claimedName, hnil]
    rw [h1, h2]
    rfl
  · have hL : extractLastName text =
        String.mk ((splitChar '.'
          (repl2 '-' '>' (repl2 ':' ':' (repl2 '?' '.' (trimChars text.toList))))).getLast?.getD
          (repl2 '-' '>' (repl2 ':' ':' (repl2 '?' '.' (trimChars text.toList))))) := by
      simp only [extractLastName, he, Bool.false_eq_true, if_false]
    rw [hL, repl3_eq_norm (trimChars text.toList).length _ le_rfl,
      splitLast_eq_lastSegF,
      lastSegF_norm_eq_cnAux (trimChars text.toList).length _ le_rfl h]
    rfl

/-- Witness for C9 (amended) at the callee text `ns::f`. -/
theorem extract_last_name_amended_witness :
    listContainsSub [':', ':', ':'] (trimChars "ns::f".toList) = false ∧
      extractLastName "ns::f" = claimedName "ns::f" :=
  ⟨by decide, extract_last_name_amended "ns::f" (by decide)⟩

/-- C9 counterexample.  On the callee text `a:::b` (an odd run of colons)
the single-pass replacement consumes only the first `::`, so the code
produces `:b`, while the substring following the final `::` occurrence is
`b`: the claim as stated is false. -/
theorem extract_last_name_counterexample :
    extractLastName "a:::b" = ":b" ∧ claimedName "a:::b" = "b" ∧
      extractLastName "a:::b" ≠ claimedName "a:::b" := by
  refine ⟨by decide, by decide, by decide⟩

end CTX
